import Mathlib

/-!
Shallow embedding of `src/mystery_delivery_sys.py` (class `FastBoxDeliverySystem`).

Numeric model: coordinates are rationals (the JSON inputs carry finite decimal
numbers) and distances are real numbers obtained with `Real.sqrt`, the
idealisation of `math.sqrt`.  Python's insertion-ordered dicts are modelled as
association lists with Python-dict update semantics: `dget?` is `d.get(k)` /
`d[k]`, and `dset` is `d[k] = v` (update in place when the key exists, append
otherwise).  The process-wide random generator (`random.uniform`) is modelled
as an oracle stream `u : ℕ → ℚ` of draws in `[0,1)` together with a counter
that advances once per draw; CPython's `random.uniform a b` computes
`a + (b-a) * random.random()`.  Exceptions (`KeyError`) are modelled with
`Except String`.  In-place mutation of one agent's stats record inside the
simulation loop is modelled by threading the record through the loop and
writing it back once; the intermediate dict states are never read by the
source, so the final state is identical.
-/

set_option linter.unusedVariables false

namespace MysteryDelivery

abbrev Point : Type := ℚ × ℚ

/-- Python dict read: `d.get(k)` (and `d[k]`, whose `KeyError` on `none` is
raised at each call site). First matching key wins; keys are unique in every
dict the source builds. -/
def dget? {α : Type} : List (String × α) → String → Option α
  | [], _ => none
  | (k', v) :: rest, k => if k' = k then some v else dget? rest k

/-- Python dict write `d[k] = v`: update in place when the key exists
(keeping its position), append otherwise. -/
def dset {α : Type} : List (String × α) → String → α → List (String × α)
  | [], k, v => [(k, v)]
  | (k', v') :: rest, k, v =>
    if k' = k then (k', v) :: rest else (k', v') :: dset rest k v

inductive StepType : Type
  | to_warehouse
  | delivery
  deriving DecidableEq

/-- One entry of `route_history` (source lines 159-164 and 178-183).
`from` and `to` are Lean keywords, hence the trailing underscores. -/
structure RouteStep : Type where
  from_ : Point
  to_ : Point
  distance : ℝ
  type : StepType

/-- One value of `self.agent_stats` (source lines 71-76). -/
structure AgentStats : Type where
  packages_delivered : ℕ
  total_distance : ℝ
  current_location : Point
  route_history : List RouteStep

/-- A parsed package (source lines 62-66).  `warehouse` is an `Option`
because `package.get('warehouse_id') or package.get('warehouse')` yields
`None` when both fields are missing or falsy. -/
structure Pkg : Type where
  id : String
  warehouse : Option String
  destination : Point
  deriving DecidableEq

/-- The mutable state of a `FastBoxDeliverySystem` object. -/
structure Sys : Type where
  warehouses : List (String × Point)
  agents : List (String × Point)
  packages : List Pkg
  agent_stats : List (String × AgentStats)

/-- An input package record: each of the four JSON fields may be absent.
Warehouse references are strings (`""` is the falsy string). -/
structure PkgRecord : Type where
  idField : Option String
  warehouseIdField : Option String
  warehouseField : Option String
  destinationField : Option Point

/-- Python's `a or b` on two optional strings: `None` and `""` are falsy.
`d.get(k)` returns `None` when `k` is absent. -/
def pyOr (a b : Option String) : Option String :=
  match a with
  | some s => if s = "" then b else some s
  | none => b

/-- `_parse_packages` (source lines 53-67): raises `KeyError` at the first
record lacking `id` or `destination`; the warehouse reference is normalised
with `package.get('warehouse_id') or package.get('warehouse')` and may end
up `None` without any error. -/
def _parse_packages : List PkgRecord → Except String (List Pkg)
  | [] => .ok []
  | r :: rest =>
    match r.idField, r.destinationField with
    | some i, some d =>
      match _parse_packages rest with
      | .ok ps => .ok (⟨i, pyOr r.warehouseIdField r.warehouseField, d⟩ :: ps)
      | .error e => .error e
    | _, _ => .error "KeyError"

/-- `_parse_warehouses` (source lines 24-38): both accepted shapes insert the
pairs into a fresh dict in order. -/
def _parse_warehouses (l : List (String × Point)) : List (String × Point) :=
  l.foldl (fun d a => dset d a.1 a.2) []

/-- `_parse_agents` (source lines 39-52): same dict insertion as warehouses. -/
def _parse_agents (l : List (String × Point)) : List (String × Point) :=
  l.foldl (fun d a => dset d a.1 a.2) []

/-- `_initialize_agent_stats` (source lines 68-76): fresh stats for every
agent, in agent iteration order. -/
def _initialize_agent_stats (agents : List (String × Point)) :
    List (String × AgentStats) :=
  agents.map (fun a => (a.1, ⟨0, 0, a.2, []⟩))

/-- `__init__` (source lines 9-23): parse the three slots, then initialise
the statistics.  A `KeyError` from package parsing aborts construction. -/
def mkSys (ws agents : List (String × Point)) (prs : List PkgRecord) :
    Except String Sys :=
  match _parse_packages prs with
  | .error e => .error e
  | .ok ps =>
    .ok ⟨_parse_warehouses ws, _parse_agents agents, ps,
      _initialize_agent_stats (_parse_agents agents)⟩

/-- The radicand of `calculate_distance`. -/
def dist2 (p1 p2 : Point) : ℚ :=
  (p2.1 - p1.1) ^ 2 + (p2.2 - p1.2) ^ 2

/-- `calculate_distance` (source lines 77-84):
`sqrt((x2-x1)**2 + (y2-y1)**2)`. -/
noncomputable def calculate_distance (p1 p2 : Point) : ℝ :=
  Real.sqrt ((dist2 p1 p2 : ℚ) : ℝ)

/-- The running-minimum update of `find_nearest_agent` (source lines 97-99).
The accumulator starts as `none`, standing for
`(nearest_agent, min_distance) = (None, float('inf'))`; since every computed
distance is a finite real, `distance < inf` always holds and the first
candidate always replaces the initial state, which is exactly the
`none => some _` branch. -/
noncomputable def updateMin (acc : Option (String × ℝ)) (aid : String) (d : ℝ) :
    Option (String × ℝ) :=
  match acc with
  | none => some (aid, d)
  | some (b, m) => if d < m then some (aid, d) else some (b, m)

/-- The loop of `find_nearest_agent` (source lines 94-99); reading
`self.agent_stats[agent_id]` raises `KeyError` when the key is absent. -/
noncomputable def findNearestAux (stats : List (String × AgentStats))
    (wloc : Point) : List String → Option (String × ℝ) →
    Except String (Option String)
  | [], acc => .ok (acc.map Prod.fst)
  | aid :: rest, acc =>
    match dget? stats aid with
    | none => .error "KeyError"
    | some st =>
      findNearestAux stats wloc rest
        (updateMin acc aid (calculate_distance st.current_location wloc))

/-- `find_nearest_agent` (source lines 85-100), always called with
`available_agents = None`, i.e. over `list(self.agents.keys())`. -/
noncomputable def find_nearest_agent (s : Sys) (warehouse_location : Point) :
    Except String (Option String) :=
  findNearestAux s.agent_stats warehouse_location (s.agents.map Prod.fst) none

/-- `self.warehouses[warehouse_id]`: a dict read whose `KeyError` (on a
`None` or unknown reference) is raised at each call site. -/
def resolveWh (warehouses : List (String × Point)) (wid : Option String) :
    Option Point :=
  wid.bind (fun w => dget? warehouses w)

/-- `random.uniform a b` = `a + (b-a) * random.random()`, consuming one draw
of the oracle stream. -/
def uniform (u : ℕ → ℚ) (k : ℕ) (a b : ℚ) : ℚ × ℕ :=
  (a + (b - a) * u k, k + 1)

/-- `simulate_random_delay` (source lines 101-110): multiplier `1.0` when
delays are disabled (no draw is consumed), otherwise
`1.0 + random.uniform(0, 0.3)`. -/
def simulate_random_delay (enable_random_delays : Bool) (u : ℕ → ℚ) (k : ℕ) :
    ℚ × ℕ :=
  if !enable_random_delays then (1, k)
  else
    let p := uniform u k 0 (3 / 10)
    (1 + p.1, p.2)

/-- The loop of `assign_packages_to_agents` (source lines 117-124).
`self.warehouses[warehouse_id]` raises `KeyError` when the reference is
`None` or unknown; `if nearest_agent:` is a Python truthiness test, so both
`None` and the empty string drop the package;
`agent_assignments[nearest_agent].append(package)` raises `KeyError` when
the key is absent. -/
noncomputable def assignAux (s : Sys) : List Pkg →
    List (String × List Pkg) → Except String (List (String × List Pkg))
  | [], m => .ok m
  | pkg :: rest, m =>
    match resolveWh s.warehouses pkg.warehouse with
    | none => .error "KeyError"
    | some wloc =>
      match find_nearest_agent s wloc with
      | .error e => .error e
      | .ok nearest =>
        match nearest with
        | some aid =>
          if aid = "" then assignAux s rest m
          else
            match dget? m aid with
            | none => .error "KeyError"
            | some l => assignAux s rest (dset m aid (l ++ [pkg]))
        | none => assignAux s rest m

/-- `assign_packages_to_agents` (source lines 111-125): the map is
initialised with an empty list for every agent key, then the packages are
scanned in their original order. -/
noncomputable def assign_packages_to_agents (s : Sys) :
    Except String (List (String × List Pkg)) :=
  assignAux s s.packages (s.agents.map (fun a => (a.1, ([] : List Pkg))))

/-- One step of the grouping loop (source lines 143-147): append the package
to its warehouse's list, creating the group at the end on first encounter. -/
def appendAt : List (Option String × List Pkg) → Option String → Pkg →
    List (Option String × List Pkg)
  | [], w, p => [(w, [p])]
  | (w', l) :: rest, w, p =>
    if w' = w then (w', l ++ [p]) :: rest else (w', l) :: appendAt rest w p

/-- `packages_by_warehouse` (source lines 142-147): a dict of lists keyed by
`package['warehouse']`, in first-encountered order. -/
def groupByWarehouse (pkgs : List Pkg) : List (Option String × List Pkg) :=
  pkgs.foldl (fun acc p => appendAt acc p.warehouse p) []

/-- The inner delivery loop (source lines 166-185): one leg per package, a
fresh delay draw per leg, stats mutated in place (modelled by threading the
record), local `current_location` moved to each destination. -/
noncomputable def deliverPackages (enable : Bool) (u : ℕ → ℚ) :
    AgentStats → Point → ℕ → List Pkg → AgentStats × Point × ℕ
  | st, cur, k, [] => (st, cur, k)
  | st, cur, k, pkg :: rest =>
    let d := calculate_distance cur pkg.destination
    let p := simulate_random_delay enable u k
    let eff := d * ((p.1 : ℚ) : ℝ)
    deliverPackages enable u
      { st with
        packages_delivered := st.packages_delivered + 1,
        total_distance := st.total_distance + eff,
        route_history := st.route_history ++ [⟨cur, pkg.destination, eff, .delivery⟩] }
      pkg.destination p.2 rest

/-- The per-warehouse loop (source lines 149-185): travel to the warehouse
(one `to_warehouse` step, setting the stats' `current_location` to the
warehouse as line 157 does), then deliver that group's packages.
`self.warehouses[warehouse_id]` raises `KeyError` on an unknown key. -/
noncomputable def processGroups (enable : Bool) (u : ℕ → ℚ)
    (warehouses : List (String × Point)) :
    AgentStats → Point → ℕ → List (Option String × List Pkg) →
    Except String (AgentStats × Point × ℕ)
  | st, cur, k, [] => .ok (st, cur, k)
  | st, cur, k, (wid, wpkgs) :: rest =>
    match resolveWh warehouses wid with
    | none => .error "KeyError"
    | some wloc =>
      let d := calculate_distance cur wloc
      let p := simulate_random_delay enable u k
      let eff := d * ((p.1 : ℚ) : ℝ)
      let q := deliverPackages enable u
        { st with
          current_location := wloc,
          total_distance := st.total_distance + eff,
          route_history := st.route_history ++ [⟨cur, wloc, eff, .to_warehouse⟩] }
        wloc p.2 wpkgs
      processGroups enable u warehouses q.1 q.2.1 q.2.2 rest

/-- The body of the per-agent loop (source lines 140-187): read the agent's
stats (KeyError when absent), group its packages, walk the groups, and
finally write the walked `current_location` back (line 187). -/
noncomputable def processOneAgent (enable : Bool) (u : ℕ → ℚ) (s : Sys)
    (k : ℕ) (aid : String) (pkgs : List Pkg) : Except String (Sys × ℕ) :=
  match dget? s.agent_stats aid with
  | none => .error "KeyError"
  | some st =>
    match processGroups enable u s.warehouses st st.current_location k
        (groupByWarehouse pkgs) with
    | .error e => .error e
    | .ok (st', cur', k') =>
      .ok ({ s with
        agent_stats := dset s.agent_stats aid
          { st' with current_location := cur' } }, k')

/-- The per-agent loop of `simulate_delivery` (source lines 137-187):
agents with an empty assignment list are skipped entirely. -/
noncomputable def processAgents (enable : Bool) (u : ℕ → ℚ) :
    Sys → ℕ → List (String × List Pkg) → Except String (Sys × ℕ)
  | s, k, [] => .ok (s, k)
  | s, k, (aid, pkgs) :: rest =>
    if pkgs = [] then processAgents enable u s k rest
    else
      match processOneAgent enable u s k aid pkgs with
      | .error e => .error e
      | .ok p => processAgents enable u p.1 p.2 rest

/-- `_add_new_agent_mid_day` (source lines 188-204): when at least one
package exists, add agent `f"A{len(self.agents)+1}"` at a uniform random
location in `[0,100) × [0,100)` with fresh stats (an existing agent with
that name is overwritten by the dict assignments); otherwise do nothing.
The `print` is an observability event outside the state. -/
def _add_new_agent_mid_day (s : Sys) (u : ℕ → ℚ) (k : ℕ) : Sys × ℕ :=
  if s.packages.length > 0 then
    let new_agent_id := "A" ++ toString (s.agents.length + 1)
    let px := uniform u k 0 100
    let py := uniform u px.2 0 100
    let new_location : Point := (px.1, py.1)
    ({ s with
      agents := dset s.agents new_agent_id new_location,
      agent_stats := dset s.agent_stats new_agent_id
        ⟨0, 0, new_location, []⟩ }, py.2)
  else (s, k)

/-- `simulate_delivery` (source lines 126-187): optionally add the mid-day
agent, then assign, then process every agent's assignment list. -/
noncomputable def simulate_delivery (s : Sys)
    (enable_delays new_agent_mid_day : Bool) (u : ℕ → ℚ) (k : ℕ) :
    Except String (Sys × ℕ) :=
  let p := if new_agent_mid_day then _add_new_agent_mid_day s u k else (s, k)
  match assign_packages_to_agents p.1 with
  | .error e => .error e
  | .ok m => processAgents enable_delays u p.1 p.2 m

/-- Round-half-to-even to the nearest integer: the documented behaviour of
Python's `round` (half-way cases on binary floats aside, which no claim
exercises). -/
noncomputable def rne (x : ℝ) : ℤ :=
  if x - ⌊x⌋ < 1 / 2 then ⌊x⌋
  else if 1 / 2 < x - ⌊x⌋ then ⌊x⌋ + 1
  else if Even ⌊x⌋ then ⌊x⌋ else ⌊x⌋ + 1

/-- Python `round(x, 2)`. -/
noncomputable def round2 (x : ℝ) : ℝ := (rne (x * 100) : ℝ) / 100

/-- A value of the report dict (source lines 216-220 and 229): per-agent
entries and, under the key `'best_agent'`, the best agent's identifier. -/
inductive ReportVal : Type
  | entry (packages_delivered : ℕ) (total_distance efficiency : ℝ)
  | best (agent : String)

/-- One report entry (source lines 211-220): `efficiency` is
`total_distance / packages_delivered` when the count is positive, else
`0.0`; both reported reals are rounded to 2 decimals. -/
noncomputable def mkEntry (st : AgentStats) : ReportVal :=
  .entry st.packages_delivered (round2 st.total_distance)
    (round2 (if 0 < st.packages_delivered then
      st.total_distance / (st.packages_delivered : ℝ) else 0))

/-- The per-agent half of `calculate_efficiency` (source lines 210-220). -/
noncomputable def reportEntries (s : Sys) : List (String × ReportVal) :=
  s.agent_stats.map (fun a => (a.1, mkEntry a.2))

/-- The best-agent scan (source lines 221-227): running minimum starting at
`(None, float('inf'))`, updated when `packages_delivered > 0` and the rounded
efficiency is strictly below the running minimum; as in `updateMin`, the
`none` accumulator stands for an infinite running minimum.  The scan runs
before the `'best_agent'` key is inserted, so the `.best` branch is
unreachable at the call site. -/
noncomputable def bestScanAux : List (String × ReportVal) →
    Option (String × ℝ) → Option String
  | [], acc => acc.map Prod.fst
  | (aid, v) :: rest, acc =>
    match v with
    | .entry n _ e =>
      bestScanAux rest
        (match acc with
        | none => if 0 < n then some (aid, e) else none
        | some (b, m) => if 0 < n ∧ e < m then some (aid, e) else some (b, m))
    | .best _ => bestScanAux rest acc

/-- `calculate_efficiency` (source lines 205-230): build the per-agent
entries, scan for the best agent, and store it under the literal key
`'best_agent'` — guarded by line 228's `if best_agent:`, a Python truthiness
test, so nothing is stored when the scan found no one *or* when the selected
identifier is the empty string. -/
noncomputable def calculate_efficiency (s : Sys) : List (String × ReportVal) :=
  match bestScanAux (reportEntries s) none with
  | some b =>
    if b = "" then reportEntries s
    else dset (reportEntries s) "best_agent" (.best b)
  | none => reportEntries s

/-- `report[k]['packages_delivered']`; the `.best` branch is unreachable
under the `k != 'best_agent'` filter of `generate_report`. -/
def deliveredOf : ReportVal → ℕ
  | .entry n _ _ => n
  | .best _ => 0

/-- The sum of `generate_report` (source lines 287-291):
`packages_delivered` summed over every report key other than the literal
`'best_agent'`. -/
noncomputable def reported_total_delivered (report : List (String × ReportVal)) : ℕ :=
  ((report.filter (fun kv => decide (kv.1 ≠ "best_agent"))).map
    (fun kv => deliveredOf kv.2)).sum

/-- `generate_report` (source lines 281-296): compute the report, sum
`packages_delivered` over every key other than `'best_agent'`, and return
the report together with the warning flag printed when the sum differs from
the total package count.  The function always returns the full report. -/
noncomputable def generate_report (s : Sys) : List (String × ReportVal) × Bool :=
  let report := calculate_efficiency s
  (report, decide (reported_total_delivered report ≠ s.packages.length))

/-! ### Derived and specification-side definitions

`firstStrictMin` and the `Is...` predicates below follow the *spec's* words
("select the agent that is strictly closer than every previously examined
candidate, first-seen wins on ties"); they are compared against the source
folds by the theorems. -/

/-- The keys of a modelled dict. -/
def dkeys {α : Type} (d : List (String × α)) : List String := d.map Prod.fst

/-- Every agent key has a statistics record (true for every state the source
constructs, where `agent_stats` is initialised from the agent dict). -/
def statsComplete (s : Sys) : Prop :=
  ∀ aid ∈ dkeys s.agents, (dget? s.agent_stats aid).isSome

/-- Data-model invariant of the spec (§3): every package's warehouse
reference resolves in the warehouse mapping. -/
def allResolve (s : Sys) : Prop :=
  ∀ p ∈ s.packages, (resolveWh s.warehouses p.warehouse).isSome

/-- Spec-side: the first element (in list order) among those satisfying `P`
whose `D`-value is minimal — "strictly closer than every previously examined
candidate, first-seen wins on exact ties". -/
noncomputable def firstStrictMin {α : Type} (D : α → ℝ) (P : α → Prop)
    [DecidablePred P] : List α → Option α
  | [] => none
  | a :: rest =>
    if P a then
      match firstStrictMin D P rest with
      | none => some a
      | some b => if D b < D a then some b else some a
    else firstStrictMin D P rest

/-- One step of a running strict minimum with eligibility predicate `P`;
the generic shape shared by the `find_nearest_agent` loop (`P` trivial) and
the best-agent scan (`P` = delivered something). -/
noncomputable def stepMin {α : Type} (D : α → ℝ) (P : α → Prop)
    [DecidablePred P] (acc : Option (α × ℝ)) (a : α) : Option (α × ℝ) :=
  match acc with
  | none => if P a then some (a, D a) else none
  | some (b, m) => if P a ∧ D a < m then some (a, D a) else some (b, m)

/-- The distance scanned by `find_nearest_agent` for one agent id: from the
agent's *current* tracked location in `agent_stats` to the warehouse.  The
`none` default is never reached when the stats dict is complete. -/
noncomputable def agentDistance (stats : List (String × AgentStats))
    (wloc : Point) (aid : String) : ℝ :=
  match dget? stats aid with
  | some st => calculate_distance st.current_location wloc
  | none => 0

/-- Spec-side: the agent that receives a package — the first agent in agent
iteration order whose current location attains the minimum distance to the
package's warehouse. -/
noncomputable def pkgNearest (s : Sys) (p : Pkg) : Option String :=
  match resolveWh s.warehouses p.warehouse with
  | some wloc =>
    firstStrictMin (agentDistance s.agent_stats wloc) (fun _ => True)
      (dkeys s.agents)
  | none => none

/-- Modelled from the spec (§4.3, §8.6): the unassigned-packages
observability counter.  The source records no such counter, so it is defined
as the spec describes it: total package count minus the number of packages
assigned to some agent. -/
def unassigned_count (s : Sys) (m : List (String × List Pkg)) : ℕ :=
  s.packages.length - (m.map (fun e => e.2.length)).sum

/-- The resolved location of a group key (total variant used by the
spec-side route; calls are guarded by resolvability hypotheses). -/
def whLoc (warehouses : List (String × Point)) (wid : Option String) : Point :=
  (resolveWh warehouses wid).getD (0, 0)

/-- Spec-side: the `delivery` legs for one warehouse group, in assignment
order, with raw Euclidean distances. -/
noncomputable def deliverySteps : Point → List Pkg → List RouteStep
  | _, [] => []
  | cur, p :: rest =>
    ⟨cur, p.destination, calculate_distance cur p.destination, .delivery⟩ ::
      deliverySteps p.destination rest

/-- The point where a delivery walk ends. -/
def walkEnd : Point → List Pkg → Point
  | cur, [] => cur
  | _, p :: rest => walkEnd p.destination rest

/-- Spec-side: the full route of one agent — per warehouse group one
`to_warehouse` leg followed by that group's `delivery` legs — with raw
Euclidean distances. -/
noncomputable def groupSteps (W : List (String × Point)) :
    Point → List (Option String × List Pkg) → List RouteStep
  | _, [] => []
  | cur, (wid, wpkgs) :: rest =>
    (⟨cur, whLoc W wid, calculate_distance cur (whLoc W wid), .to_warehouse⟩ ::
      deliverySteps (whLoc W wid) wpkgs) ++
      groupSteps W (walkEnd (whLoc W wid) wpkgs) rest

/-- The point where an agent's route ends: its last destination. -/
def groupsEnd (W : List (String × Point)) :
    Point → List (Option String × List Pkg) → Point
  | cur, [] => cur
  | cur, (wid, wpkgs) :: rest =>
    groupsEnd W (walkEnd (whLoc W wid) wpkgs) rest

/-- The value held by the stats' `current_location` field while the group
loop runs: the last visited warehouse (line 157 of the source); it is
overwritten with the final walked position at line 187. -/
def groupsCurrent (W : List (String × Point)) :
    Point → List (Option String × List Pkg) → Point
  | c, [] => c
  | _, (wid, _) :: rest => groupsCurrent W (whLoc W wid) rest

/-- Spec-side: the statistics record an agent ends a delays-disabled run
with, starting from `st₀`: one delivery per assigned package, the raw
Euclidean route distances accumulated, the final location the last
destination of its route, and the route history the grouped walk. -/
noncomputable def agentOutcome (W : List (String × Point)) (st₀ : AgentStats)
    (pkgs : List Pkg) : AgentStats :=
  ⟨st₀.packages_delivered + pkgs.length,
   st₀.total_distance + ((groupSteps W st₀.current_location
     (groupByWarehouse pkgs)).map RouteStep.distance).sum,
   groupsEnd W st₀.current_location (groupByWarehouse pkgs),
   st₀.route_history ++ groupSteps W st₀.current_location
     (groupByWarehouse pkgs)⟩

/-- The identifier `_add_new_agent_mid_day` synthesises:
`f"A{len(self.agents) + 1}"`. -/
def new_agent_idOf (s : Sys) : String := "A" ++ toString (s.agents.length + 1)

/-- A route leg whose recorded distance is exactly the raw Euclidean
distance of the leg. -/
def StepRaw (step : RouteStep) : Prop :=
  step.distance = calculate_distance step.from_ step.to_

/-- A route leg whose recorded distance is the raw distance scaled by a
delay multiplier `1 + 0.3 * u n` built from some draw `n` of the oracle. -/
def StepDelayed (u : ℕ → ℚ) (step : RouteStep) : Prop :=
  ∃ n, step.distance =
    calculate_distance step.from_ step.to_ * ((1 + 3 / 10 * u n : ℚ) : ℝ)

/-- The legs `L`, in order, consume the consecutive oracle draws
`k, k+1, …`: leg `i` is scaled by the freshly drawn multiplier
`1 + 0.3 * u (k + i)` — one independent draw per leg, none reused. -/
def LegsIndexed (u : ℕ → ℚ) (k : ℕ) (L : List RouteStep) : Prop :=
  ∀ i : Fin L.length, (L.get i).distance =
    calculate_distance (L.get i).from_ (L.get i).to_ *
      ((1 + 3 / 10 * u (k + (i : ℕ)) : ℚ) : ℝ)

/-- Spec-side: the `delivery` legs of one warehouse group with the delay
multipliers the delays-enabled run applies, drawn from the oracle at
consecutive indices starting at `k` (one fresh draw per leg). -/
noncomputable def delayedDeliverySteps (u : ℕ → ℚ) :
    Point → ℕ → List Pkg → List RouteStep
  | _, _, [] => []
  | cur, k, p :: rest =>
    ⟨cur, p.destination,
      calculate_distance cur p.destination *
        ((1 + (0 + (3 / 10 - 0) * u k) : ℚ) : ℝ), .delivery⟩ ::
      delayedDeliverySteps u p.destination (k + 1) rest

/-- Spec-side: the full delayed route of one agent — per warehouse group one
`to_warehouse` leg followed by that group's `delivery` legs — each leg
scaled by its own fresh multiplier drawn at consecutive oracle indices. -/
noncomputable def delayedGroupSteps (u : ℕ → ℚ) (W : List (String × Point)) :
    Point → ℕ → List (Option String × List Pkg) → List RouteStep
  | _, _, [] => []
  | cur, k, (wid, wpkgs) :: rest =>
    (⟨cur, whLoc W wid,
      calculate_distance cur (whLoc W wid) *
        ((1 + (0 + (3 / 10 - 0) * u k) : ℚ) : ℝ), .to_warehouse⟩ ::
      delayedDeliverySteps u (whLoc W wid) (k + 1) wpkgs) ++
      delayedGroupSteps u W (walkEnd (whLoc W wid) wpkgs)
        (k + 1 + wpkgs.length) rest

/-- The rounded efficiency stored in a report entry (the value the best-agent
scan of the source compares); `0` on the designator value, which the scan
skips. -/
def entryEff : ReportVal → ℝ
  | .entry _ _ e => e
  | .best _ => 0

/-- The route histories produced for the agents of an assignment map, in
processing order, concatenated. -/
def joinedRoutes (s : Sys) (m : List (String × List Pkg)) : List RouteStep :=
  (m.map (fun e =>
    ((dget? s.agent_stats e.1).map AgentStats.route_history).getD [])).flatten

/-- Sum of `packages_delivered` over the stats dict. -/
def statsDeliveredSum (s : Sys) : ℕ :=
  (s.agent_stats.map (fun kv => kv.2.packages_delivered)).sum

/-- The constant-zero oracle stream (a legal generator: every draw is in
`[0,1)`). -/
def zeroStream : ℕ → ℚ := fun _ => 0

/-- The §8.2 scenario: warehouse `W1` at the origin, agent `A1` at the
origin, agent `A2` at `(10,10)`, one package from `W1` to `(5,5)`. -/
def scenA : Sys :=
  ⟨[("W1", (0, 0))], [("A1", (0, 0)), ("A2", (10, 10))],
    [⟨"P1", some "W1", (5, 5)⟩],
    _initialize_agent_stats [("A1", (0, 0)), ("A2", (10, 10))]⟩

/-- A catalog whose only agent has the empty-string identifier — a falsy
value for Python's `if nearest_agent:` test. -/
def scenE : Sys :=
  ⟨[("W1", (0, 0))], [("", (0, 0))], [⟨"P1", some "W1", (3, 4)⟩],
    _initialize_agent_stats [("", (0, 0))]⟩

/-- A catalog producing a zero-length route leg: the agent already sits on
the warehouse and the package's destination is the warehouse itself. -/
def scenZ : Sys :=
  ⟨[("W1", (0, 0))], [("A1", (0, 0))], [⟨"P1", some "W1", (0, 0)⟩],
    _initialize_agent_stats [("A1", (0, 0))]⟩

/-- A catalog whose only agent is named `A2`: the identifier that
`_add_new_agent_mid_day` synthesises for a one-agent fleet. -/
def scenC : Sys :=
  ⟨[], [("A2", (1, 2))], [⟨"P1", some "W1", (0, 0)⟩],
    _initialize_agent_stats [("A2", (1, 2))]⟩

/-- A catalog with one warehouse, one package and no agents at all. -/
def scen0 : Sys :=
  ⟨[("W1", (0, 0))], [], [⟨"P1", some "W1", (1, 1)⟩], []⟩

/-- A catalog whose package references a warehouse that does not exist. -/
def scenU : Sys :=
  ⟨[], [("A1", (0, 0))], [⟨"P1", some "W9", (1, 1)⟩],
    _initialize_agent_stats [("A1", (0, 0))]⟩

/-- A stats state whose only — hence strict-minimum — delivering agent has
the empty-string identifier: 1 delivery over distance 3.  A falsy value for
line 228's `if best_agent:`. -/
noncomputable def scenB : Sys :=
  ⟨[], [], [], [("", ⟨1, 3, (0, 0), []⟩)]⟩

/-- A stats state for exercising the report: `A1` delivered 2 over
distance 10 (efficiency 5), `A2` delivered 1 over distance 3
(efficiency 3, the best), `A3` delivered nothing. -/
noncomputable def scenR : Sys :=
  ⟨[], [], [],
    [("A1", ⟨2, 10, (0, 0), []⟩), ("A2", ⟨1, 3, (0, 0), []⟩),
      ("A3", ⟨0, 0, (0, 0), []⟩)]⟩

/-! ## Dictionary lemmas -/

theorem dget?_eq_none {α : Type} {d : List (String × α)} {k : String} :
    dget? d k = none ↔ k ∉ dkeys d := by
  induction d with
  | nil => simp [dget?, dkeys]
  | cons e rest ih =>
    obtain ⟨k', v⟩ := e
    by_cases h : k' = k
    · subst h
      simp [dget?, dkeys]
    · simp only [dget?, if_neg h, dkeys, List.map_cons, List.mem_cons]
      rw [ih, dkeys]
      have h' : ¬k = k' := fun hh => h hh.symm
      tauto

theorem dget?_isSome_iff {α : Type} {d : List (String × α)} {k : String} :
    (dget? d k).isSome ↔ k ∈ dkeys d := by
  simp [Option.isSome_iff_ne_none, Ne, dget?_eq_none]

theorem dget?_dset_self {α : Type} (d : List (String × α)) (k : String) (v : α) :
    dget? (dset d k v) k = some v := by
  induction d with
  | nil => simp [dset, dget?]
  | cons e rest ih =>
    obtain ⟨k', v'⟩ := e
    by_cases h : k' = k <;> simp [dset, dget?, h, ih]

theorem dget?_dset_ne {α : Type} {d : List (String × α)} {k k' : String}
    (v : α) (h : k' ≠ k) : dget? (dset d k v) k' = dget? d k' := by
  induction d with
  | nil => simp [dset, dget?, Ne.symm h]
  | cons e rest ih =>
    obtain ⟨k₀, v₀⟩ := e
    by_cases h₀ : k₀ = k
    · subst h₀
      simp [dset, dget?, Ne.symm h]
    · simp only [dset, if_neg h₀, dget?]
      by_cases h₁ : k₀ = k' <;> simp [h₁, ih]

theorem dset_of_not_mem {α : Type} {d : List (String × α)} {k : String}
    (v : α) (h : k ∉ dkeys d) : dset d k v = d ++ [(k, v)] := by
  induction d with
  | nil => simp [dset]
  | cons e rest ih =>
    obtain ⟨k', v'⟩ := e
    simp only [dkeys, List.map_cons, List.mem_cons, not_or] at h
    simp only [dset, if_neg (fun hh : k' = k => h.1 hh.symm), List.cons_append]
    rw [ih (by simpa [dkeys] using h.2)]

theorem dkeys_dset_of_mem {α : Type} {d : List (String × α)} {k : String}
    (v : α) (h : k ∈ dkeys d) : dkeys (dset d k v) = dkeys d := by
  induction d with
  | nil => simp [dkeys] at h
  | cons e rest ih =>
    obtain ⟨k', v'⟩ := e
    by_cases h' : k' = k
    · simp [dset, h', dkeys]
    · simp only [dkeys, List.map_cons, List.mem_cons] at h
      rcases h with h | h
      · exact absurd h.symm h'
      · have hr := ih (show k ∈ dkeys rest by simpa [dkeys] using h)
        simp only [dset, if_neg h', dkeys, List.map_cons] at hr ⊢
        rw [hr]

theorem mem_dset {α : Type} {d : List (String × α)} {k : String} {v : α}
    {e : String × α} (h : e ∈ dset d k v) : e ∈ d ∨ e = (k, v) := by
  induction d with
  | nil => simpa [dset] using h
  | cons e₀ rest ih =>
    obtain ⟨k', v'⟩ := e₀
    by_cases h' : k' = k
    · subst h'
      simp [dset] at h
      rcases h with h | h
      · exact Or.inr h
      · exact Or.inl (List.mem_cons_of_mem _ h)
    · simp only [dset, if_neg h', List.mem_cons] at h
      rcases h with h | h
      · exact Or.inl (by simp [h])
      · rcases ih h with h | h
        · exact Or.inl (List.mem_cons_of_mem _ h)
        · exact Or.inr h

theorem dset_map_sum {α : Type} (f : α → ℕ) {d : List (String × α)}
    {k : String} {w : α} (v : α) (h : dget? d k = some w) :
    ((dset d k v).map (fun kv => f kv.2)).sum + f w =
      (d.map (fun kv => f kv.2)).sum + f v := by
  induction d with
  | nil => simp [dget?] at h
  | cons e rest ih =>
    obtain ⟨k', v'⟩ := e
    by_cases h' : k' = k
    · simp only [dget?, if_pos h'] at h
      cases h
      simp [dset, h']
      ring
    · simp only [dget?, if_neg h'] at h
      simp only [dset, if_neg h', List.map_cons, List.sum_cons]
      have := ih h
      omega

/-! ## First-seen strict-minimum machinery -/

theorem firstStrictMin_none_iff {α : Type} (D : α → ℝ) (P : α → Prop)
    [DecidablePred P] (l : List α) :
    firstStrictMin D P l = none ↔ ∀ a ∈ l, ¬P a := by
  induction l with
  | nil => simp [firstStrictMin]
  | cons a rest ih =>
    by_cases hP : P a
    · simp only [firstStrictMin, if_pos hP]
      rcases hfs : firstStrictMin D P rest with _ | c <;> simp [hP]
      split <;> simp
    · simp only [firstStrictMin, if_neg hP, List.mem_cons]
      rw [ih]
      constructor
      · rintro h x (rfl | hx)
        · exact hP
        · exact h x hx
      · intro h x hx
        exact h x (Or.inr hx)

/-- What the spec's selection rule guarantees: the result is eligible, its
value is minimal among eligible elements, and every eligible element
strictly before it has a strictly larger value (first-seen wins ties). -/
theorem firstStrictMin_spec {α : Type} (D : α → ℝ) (P : α → Prop)
    [DecidablePred P] :
    ∀ (l : List α) (b : α), firstStrictMin D P l = some b →
      P b ∧ (∀ a ∈ l, P a → D b ≤ D a) ∧
        ∃ l₁ l₂, l = l₁ ++ b :: l₂ ∧ ∀ a ∈ l₁, P a → D b < D a := by
  intro l
  induction l with
  | nil => simp [firstStrictMin]
  | cons a rest ih =>
    intro b hb
    by_cases hP : P a
    · simp only [firstStrictMin, if_pos hP] at hb
      rcases hfs : firstStrictMin D P rest with _ | c
      · rw [hfs] at hb
        cases hb
        refine ⟨hP, ?_, [], rest, rfl, by simp⟩
        intro x hx hPx
        rcases List.mem_cons.mp hx with rfl | hx
        · exact le_refl _
        · exact absurd hPx ((firstStrictMin_none_iff D P rest).mp hfs x hx)
      · rw [hfs] at hb
        dsimp only at hb
        obtain ⟨hPc, hmin, l₁, l₂, hsplit, hstrict⟩ := ih c hfs
        by_cases hlt : D c < D a
        · rw [if_pos hlt] at hb
          cases hb
          refine ⟨hPc, ?_, a :: l₁, l₂, by simp [hsplit], ?_⟩
          · intro x hx hPx
            rcases List.mem_cons.mp hx with rfl | hx
            · exact le_of_lt hlt
            · exact hmin x hx hPx
          · intro x hx hPx
            rcases List.mem_cons.mp hx with rfl | hx
            · exact hlt
            · exact hstrict x hx hPx
        · rw [if_neg hlt] at hb
          cases hb
          refine ⟨hP, ?_, [], rest, rfl, by simp⟩
          intro x hx hPx
          rcases List.mem_cons.mp hx with rfl | hx
          · exact le_refl _
          · exact le_trans (le_of_not_lt hlt) (hmin x hx hPx)
    · simp only [firstStrictMin, if_neg hP] at hb
      obtain ⟨hPb, hmin, l₁, l₂, hsplit, hstrict⟩ := ih b hb
      refine ⟨hPb, ?_, a :: l₁, l₂, by simp [hsplit], ?_⟩
      · intro x hx hPx
        rcases List.mem_cons.mp hx with rfl | hx
        · exact absurd hPx hP
        · exact hmin x hx hPx
      · intro x hx hPx
        rcases List.mem_cons.mp hx with rfl | hx
        · exact absurd hPx hP
        · exact hstrict x hx hPx

theorem foldl_stepMin_some {α : Type} (D : α → ℝ) (P : α → Prop)
    [DecidablePred P] :
    ∀ (l : List α) (b : α) (m : ℝ),
      l.foldl (stepMin D P) (some (b, m)) =
        some (match firstStrictMin D P l with
          | some c => if D c < m then (c, D c) else (b, m)
          | none => (b, m)) := by
  intro l
  induction l with
  | nil => simp [firstStrictMin]
  | cons a rest ih =>
    intro b m
    rw [List.foldl_cons]
    by_cases hP : P a
    · by_cases hD : D a < m
      · have hstep : stepMin D P (some (b, m)) a = some (a, D a) := by
          simp [stepMin, hP, hD]
        rw [hstep, ih]
        simp only [firstStrictMin, if_pos hP]
        rcases hfs : firstStrictMin D P rest with _ | c
        · simp [if_pos hD]
        · by_cases hlt : D c < D a
          · simp only [if_pos hlt]
            have : D c < m := lt_trans hlt hD
            simp [this]
          · simp [if_neg hlt, hD]
      · have hstep : stepMin D P (some (b, m)) a = some (b, m) := by
          simp [stepMin, hD]
        rw [hstep, ih]
        simp only [firstStrictMin, if_pos hP]
        rcases hfs : firstStrictMin D P rest with _ | c
        · simp [hD]
        · by_cases hlt : D c < D a
          · simp [if_pos hlt]
          · have : ¬D c < m :=
              not_lt.mpr (le_trans (not_lt.mp hD) (le_of_not_lt hlt))
            simp [if_neg hlt, hD, this]
    · have hstep : stepMin D P (some (b, m)) a = some (b, m) := by
        simp [stepMin, hP]
      rw [hstep, ih]
      simp only [firstStrictMin, if_neg hP]

theorem foldl_stepMin_none {α : Type} (D : α → ℝ) (P : α → Prop)
    [DecidablePred P] (l : List α) :
    l.foldl (stepMin D P) none =
      (firstStrictMin D P l).map (fun c => (c, D c)) := by
  induction l with
  | nil => simp [firstStrictMin]
  | cons a rest ih =>
    rw [List.foldl_cons]
    by_cases hP : P a
    · have hstep : stepMin D P none a = some (a, D a) := by simp [stepMin, hP]
      rw [hstep, foldl_stepMin_some]
      simp only [firstStrictMin, if_pos hP]
      rcases hfs : firstStrictMin D P rest with _ | c
      · simp
      · by_cases hlt : D c < D a <;> simp [hlt]
    · have hstep : stepMin D P none a = none := by simp [stepMin, hP]
      rw [hstep, ih]
      simp only [firstStrictMin, if_neg hP]

/-! ## `find_nearest_agent` refines the spec's selection rule -/

theorem updateMin_eq_stepMin (D : String → ℝ) (acc : Option (String × ℝ))
    (a : String) : updateMin acc a (D a) = stepMin D (fun _ => True) acc a := by
  rcases acc with _ | ⟨b, m⟩ <;> simp [updateMin, stepMin]

theorem findNearestAux_ok (stats : List (String × AgentStats)) (wloc : Point) :
    ∀ (l : List String) (acc : Option (String × ℝ)),
      (∀ aid ∈ l, (dget? stats aid).isSome) →
      findNearestAux stats wloc l acc =
        .ok ((l.foldl (stepMin (agentDistance stats wloc) (fun _ => True))
          acc).map Prod.fst) := by
  intro l
  induction l with
  | nil => intro acc h; rfl
  | cons aid rest ih =>
    intro acc h
    have hmem : (dget? stats aid).isSome := h aid (List.mem_cons_self _ _)
    rcases hst : dget? stats aid with _ | st
    · rw [hst] at hmem
      simp at hmem
    · have hD : agentDistance stats wloc aid =
          calculate_distance st.current_location wloc := by
        simp [agentDistance, hst]
      simp only [findNearestAux, hst, List.foldl_cons]
      rw [← hD, updateMin_eq_stepMin]
      exact ih _ (fun x hx => h x (List.mem_cons_of_mem _ hx))

/-- Under a complete stats dict, `find_nearest_agent` returns exactly the
spec's first-seen minimum-distance agent. -/
theorem find_nearest_agent_eq {s : Sys} (hst : statsComplete s) (wloc : Point) :
    find_nearest_agent s wloc =
      .ok (firstStrictMin (agentDistance s.agent_stats wloc) (fun _ => True)
        (dkeys s.agents)) := by
  rw [find_nearest_agent,
    findNearestAux_ok s.agent_stats wloc (s.agents.map Prod.fst) none hst,
    foldl_stepMin_none]
  rw [show (s.agents.map Prod.fst) = dkeys s.agents from rfl]
  rcases firstStrictMin (agentDistance s.agent_stats wloc) (fun _ => True)
    (dkeys s.agents) with _ | c <;> simp

theorem dget?_eq_of_mem_nodup {α : Type} {d : List (String × α)}
    {e : String × α} (hnd : (dkeys d).Nodup) (h : e ∈ d) :
    dget? d e.1 = some e.2 := by
  induction d with
  | nil => simp at h
  | cons e₀ rest ih =>
    obtain ⟨k₀, v₀⟩ := e₀
    simp only [dkeys, List.map_cons, List.nodup_cons] at hnd
    rcases List.mem_cons.mp h with rfl | h
    · simp [dget?]
    · have hne : k₀ ≠ e.1 := by
        intro hk
        exact hnd.1 (hk ▸ List.mem_map_of_mem Prod.fst h)
      simp only [dget?, if_neg hne]
      exact ih hnd.2 h

theorem dget?_map_const {α β : Type} (l : List (String × α)) (c : β)
    (k : String) :
    dget? (l.map (fun a => (a.1, c))) k =
      if k ∈ dkeys l then some c else none := by
  induction l with
  | nil => simp [dget?, dkeys]
  | cons e rest ih =>
    obtain ⟨k', v⟩ := e
    by_cases h : k' = k
    · subst h
      simp [dget?, dkeys]
    · have h' : ¬k = k' := fun hh => h hh.symm
      simp only [List.map_cons, dget?, if_neg h, dkeys]
      rw [show dkeys rest = List.map Prod.fst rest from rfl] at ih
      rw [ih]
      by_cases hm : k ∈ List.map Prod.fst rest
      · simp [hm, List.mem_cons]
      · simp [hm, List.mem_cons, h']

theorem firstStrictMin_isSome_of_ne_nil {α : Type} (D : α → ℝ)
    {l : List α} (h : l ≠ []) :
    (firstStrictMin D (fun _ => True) l).isSome := by
  rcases hfs : firstStrictMin D (fun _ => True) l with _ | c
  · rcases l with _ | ⟨a, rest⟩
    · exact absurd rfl h
    · exact absurd ((firstStrictMin_none_iff _ _ _).mp hfs a
        (List.mem_cons_self _ _)) (by simp)
  · rfl

theorem find_nearest_eq_pkgNearest {s : Sys} (hst : statsComplete s)
    {p : Pkg} {wloc : Point}
    (hres : resolveWh s.warehouses p.warehouse = some wloc) :
    find_nearest_agent s wloc = .ok (pkgNearest s p) := by
  rw [find_nearest_agent_eq hst, pkgNearest, hres]

theorem pkgNearest_mem {s : Sys} {p : Pkg} {aid : String}
    (h : pkgNearest s p = some aid) : aid ∈ dkeys s.agents := by
  rw [pkgNearest] at h
  rcases hres : resolveWh s.warehouses p.warehouse with _ | wloc
  · rw [hres] at h
    simp at h
  · rw [hres] at h
    obtain ⟨-, -, l₁, l₂, hsplit, -⟩ := firstStrictMin_spec _ _ _ _ h
    rw [hsplit]
    simp

/-- The predicate deciding whether `assign_packages_to_agents` puts package
`q` into agent `aid`'s list: `aid` is the first-seen nearest agent and its
identifier is truthy. -/
noncomputable def assignedTo (s : Sys) (aid : String) (q : Pkg) : Bool :=
  decide (pkgNearest s q = some aid ∧ aid ≠ "")

theorem assignAux_filter (s : Sys) (hst : statsComplete s) :
    ∀ (ps : List Pkg) (m : List (String × List Pkg)),
      (∀ p ∈ ps, (resolveWh s.warehouses p.warehouse).isSome) →
      dkeys m = dkeys s.agents →
      ∃ m', assignAux s ps m = .ok m' ∧ dkeys m' = dkeys m ∧
        ∀ aid l, dget? m aid = some l →
          dget? m' aid = some (l ++ ps.filter (assignedTo s aid)) := by
  intro ps
  induction ps with
  | nil =>
    intro m hres hkeys
    exact ⟨m, rfl, rfl, by simp⟩
  | cons p rest ih =>
    intro m hres hkeys
    have hp := hres p (List.mem_cons_self _ _)
    rcases hwl : resolveWh s.warehouses p.warehouse with _ | wloc
    · rw [hwl] at hp
      simp at hp
    · have hnear := find_nearest_eq_pkgNearest hst hwl
      rcases hpn : pkgNearest s p with _ | aid₀
      · -- no agent selected: the package is skipped
        rw [hpn] at hnear
        have : assignAux s (p :: rest) m = assignAux s rest m := by
          simp only [assignAux, hwl, hnear]
        rw [this]
        obtain ⟨m', hok, hk, hlists⟩ :=
          ih m (fun q hq => hres q (List.mem_cons_of_mem _ hq)) hkeys
        refine ⟨m', hok, hk, ?_⟩
        intro aid l hl
        rw [hlists aid l hl]
        have : List.filter (assignedTo s aid) (p :: rest) =
            List.filter (assignedTo s aid) rest := by
          simp [List.filter, assignedTo, hpn]
        rw [this]
      · rw [hpn] at hnear
        by_cases haid : aid₀ = ""
        · -- falsy identifier: the package is dropped
          subst haid
          have : assignAux s (p :: rest) m = assignAux s rest m := by
            simp [assignAux, hwl, hnear]
          rw [this]
          obtain ⟨m', hok, hk, hlists⟩ :=
            ih m (fun q hq => hres q (List.mem_cons_of_mem _ hq)) hkeys
          refine ⟨m', hok, hk, ?_⟩
          intro aid l hl
          rw [hlists aid l hl]
          have : List.filter (assignedTo s aid) (p :: rest) =
              List.filter (assignedTo s aid) rest := by
            by_cases haa : aid = ""
            · simp [List.filter, assignedTo, haa]
            · have hne : ("" : String) ≠ aid := fun hh => haa hh.symm
              simp [List.filter, assignedTo, hpn, hne]
          rw [this]
        · -- the package is appended to aid₀'s list
          have hmem : aid₀ ∈ dkeys m := hkeys ▸ pkgNearest_mem hpn
          rcases hl₀ : dget? m aid₀ with _ | l₀
          · exact absurd (dget?_eq_none.mp hl₀) (by simpa using hmem)
          · have : assignAux s (p :: rest) m =
                assignAux s rest (dset m aid₀ (l₀ ++ [p])) := by
              simp only [assignAux, hwl, hnear, if_neg haid, hl₀]
            rw [this]
            obtain ⟨m', hok, hk, hlists⟩ :=
              ih (dset m aid₀ (l₀ ++ [p]))
                (fun q hq => hres q (List.mem_cons_of_mem _ hq))
                (by rw [dkeys_dset_of_mem _ hmem, hkeys])
            refine ⟨m', hok, by rw [hk, dkeys_dset_of_mem _ hmem], ?_⟩
            intro aid l hl
            by_cases haa : aid = aid₀
            · subst haa
              rw [hl₀] at hl
              have heq : l₀ = l := Option.some.inj hl
              subst heq
              have := hlists aid (l₀ ++ [p]) (dget?_dset_self _ _ _)
              rw [this]
              have hfil : List.filter (assignedTo s aid) (p :: rest) =
                  p :: List.filter (assignedTo s aid) rest := by
                simp [List.filter, assignedTo, hpn, haid]
              rw [hfil, List.append_assoc]
              rfl
            · have := hlists aid l
                (by rw [dget?_dset_ne _ haa]; exact hl)
              rw [this]
              have hfil : List.filter (assignedTo s aid) (p :: rest) =
                  List.filter (assignedTo s aid) rest := by
                have : ¬(pkgNearest s p = some aid ∧ aid ≠ "") := by
                  rintro ⟨hc, -⟩
                  rw [hpn] at hc
                  exact haa (Option.some.inj hc).symm
                simp [List.filter, assignedTo, this]
              rw [hfil]

/-- `assign_packages_to_agents` succeeds on a complete, resolving catalog
and returns, for each agent key, exactly the packages (in original order)
whose first-seen nearest agent it is — provided its identifier is truthy. -/
theorem assign_filter (s : Sys) (hst : statsComplete s) (hres : allResolve s) :
    ∃ m, assign_packages_to_agents s = .ok m ∧ dkeys m = dkeys s.agents ∧
      ∀ aid ∈ dkeys s.agents,
        dget? m aid = some (s.packages.filter (assignedTo s aid)) := by
  have hkeys : dkeys (s.agents.map (fun a => (a.1, ([] : List Pkg)))) =
      dkeys s.agents := by
    simp [dkeys, List.map_map]
  obtain ⟨m, hok, hk, hlists⟩ := assignAux_filter s hst s.packages _ hres hkeys
  refine ⟨m, hok, by rw [hk, hkeys], ?_⟩
  intro aid hmem
  have h₀ : dget? (s.agents.map (fun a => (a.1, ([] : List Pkg)))) aid =
      some [] := by
    rw [dget?_map_const, if_pos hmem]
  have := hlists aid [] h₀
  simpa using this

theorem agentDistance_nonneg (stats : List (String × AgentStats))
    (wloc : Point) (aid : String) : 0 ≤ agentDistance stats wloc aid := by
  rw [agentDistance]
  rcases dget? stats aid with _ | st
  · exact le_refl 0
  · exact Real.sqrt_nonneg _

theorem firstStrictMin_true_cons {α : Type} (D : α → ℝ) (a : α)
    (rest : List α) :
    firstStrictMin D (fun _ => True) (a :: rest) =
      match firstStrictMin D (fun _ => True) rest with
      | none => some a
      | some b => if D b < D a then some b else some a := by
  simp [firstStrictMin]

/-- Whatever map `assign_packages_to_agents` returns on a complete,
resolving catalog with distinct agent keys, each of its entries holds
exactly the packages assigned to that agent by the nearest-first rule. -/
theorem assign_mem_values {s : Sys} (hst : statsComplete s)
    (hres : allResolve s) (hnd : (dkeys s.agents).Nodup)
    {m : List (String × List Pkg)}
    (hok : assign_packages_to_agents s = .ok m) {e : String × List Pkg}
    (he : e ∈ m) : e.2 = s.packages.filter (assignedTo s e.1) := by
  obtain ⟨m₀, hok₀, hkeys₀, hlists₀⟩ := assign_filter s hst hres
  rw [hok₀] at hok
  have hm : m = m₀ := (Except.ok.inj hok).symm
  subst hm
  have hek : e.1 ∈ dkeys m := List.mem_map_of_mem Prod.fst he
  have hnd' : (dkeys m).Nodup := hkeys₀ ▸ hnd
  have hl := dget?_eq_of_mem_nodup hnd' he
  rw [hlists₀ e.1 (hkeys₀ ▸ hek)] at hl
  exact (Option.some.inj hl).symm

theorem scenA_nearest :
    pkgNearest scenA ⟨"P1", some "W1", (5, 5)⟩ = some "A1" := by
  have hres : resolveWh scenA.warehouses (some "W1") =
      some ((0 : ℚ), (0 : ℚ)) := by
    simp [resolveWh, scenA, dget?]
  have hA1 : agentDistance scenA.agent_stats ((0 : ℚ), (0 : ℚ)) "A1" = 0 := by
    simp [agentDistance, scenA, _initialize_agent_stats, dget?,
      calculate_distance, dist2]
  have hcmp : ¬agentDistance scenA.agent_stats ((0 : ℚ), (0 : ℚ)) "A2" <
      agentDistance scenA.agent_stats ((0 : ℚ), (0 : ℚ)) "A1" := by
    rw [hA1]
    exact not_lt.mpr (agentDistance_nonneg _ _ _)
  rw [pkgNearest,
    show (⟨"P1", some "W1", (5, 5)⟩ : Pkg).warehouse = some "W1" from rfl,
    hres]
  show firstStrictMin _ _ (dkeys scenA.agents) = some "A1"
  rw [show dkeys scenA.agents = ["A1", "A2"] from rfl,
    firstStrictMin_true_cons, firstStrictMin_true_cons]
  show (match (some "A2" : Option String) with
    | none => some "A1"
    | some b => if agentDistance scenA.agent_stats ((0 : ℚ), (0 : ℚ)) b <
        agentDistance scenA.agent_stats ((0 : ℚ), (0 : ℚ)) "A1" then some b
      else some "A1") = some "A1"
  rw [show (match (some "A2" : Option String) with
    | none => some "A1"
    | some b => if agentDistance scenA.agent_stats ((0 : ℚ), (0 : ℚ)) b <
        agentDistance scenA.agent_stats ((0 : ℚ), (0 : ℚ)) "A1" then some b
      else some "A1") =
      if agentDistance scenA.agent_stats ((0 : ℚ), (0 : ℚ)) "A2" <
        agentDistance scenA.agent_stats ((0 : ℚ), (0 : ℚ)) "A1" then some "A2"
      else some "A1" from rfl]
  rw [if_neg hcmp]

theorem scenE_nearest :
    pkgNearest scenE ⟨"P1", some "W1", (3, 4)⟩ = some "" := by
  have hres : resolveWh scenE.warehouses (some "W1") =
      some ((0 : ℚ), (0 : ℚ)) := by
    simp [resolveWh, scenE, dget?]
  rw [pkgNearest,
    show (⟨"P1", some "W1", (3, 4)⟩ : Pkg).warehouse = some "W1" from rfl,
    hres]
  show firstStrictMin _ _ (dkeys scenE.agents) = some ""
  rw [show dkeys scenE.agents = [""] from rfl, firstStrictMin_true_cons]
  rfl

theorem scenE_statsComplete : statsComplete scenE := by
  intro aid h
  simp [scenE, dkeys] at h
  subst h
  simp [scenE, _initialize_agent_stats, dget?]

theorem scenE_allResolve : allResolve scenE := by
  intro p hp
  simp [scenE] at hp
  subst hp
  simp [resolveWh, scenE, dget?]

/-- C1, counterexample: in `scenE` the (unique, hence nearest) agent has the
empty-string identifier, yet the package is assigned to no one, because
`if nearest_agent:` treats `''` as falsy — refuting the claim that every
package goes to the minimum-distance agent. -/
theorem claimC1_counterexample :
    pkgNearest scenE ⟨"P1", some "W1", (3, 4)⟩ = some "" ∧
    ∃ m, assign_packages_to_agents scenE = .ok m ∧
      ∀ e ∈ m, (⟨"P1", some "W1", (3, 4)⟩ : Pkg) ∉ e.2 := by
  have hnd : (dkeys scenE.agents).Nodup := by
    simp [scenE, dkeys]
  obtain ⟨m, hok, hkeys, hlists⟩ :=
    assign_filter scenE scenE_statsComplete scenE_allResolve
  refine ⟨scenE_nearest, m, hok, ?_⟩
  intro e he hpe
  have he2 := assign_mem_values scenE_statsComplete scenE_allResolve hnd hok he
  rw [he2, List.mem_filter] at hpe
  have := hpe.2
  rw [assignedTo, decide_eq_true_eq] at this
  obtain ⟨hc, hne1⟩ := this
  rw [scenE_nearest] at hc
  exact hne1 (Option.some.inj hc).symm

/-- C1 (amended): for every package, in original order, the policy computes
the first-seen minimum-distance agent over the agents' current tracked
locations (ties broken in favour of earlier iteration order, strict `<`
against the running minimum); the package is assigned to that agent — but
only when the agent's identifier is truthy (non-empty).  When the selected
identifier is the empty string the package is assigned to no one. -/
theorem claimC1_assignment (s : Sys) (hst : statsComplete s)
    (hres : allResolve s) (hnd : (dkeys s.agents).Nodup)
    (hne : s.agents ≠ []) :
    ∃ m, assign_packages_to_agents s = .ok m ∧
      ∀ p ∈ s.packages, ∃ wloc aid,
        resolveWh s.warehouses p.warehouse = some wloc ∧
        pkgNearest s p = some aid ∧
        find_nearest_agent s wloc = .ok (some aid) ∧
        (∀ b ∈ dkeys s.agents, agentDistance s.agent_stats wloc aid ≤
          agentDistance s.agent_stats wloc b) ∧
        (∃ l₁ l₂, dkeys s.agents = l₁ ++ aid :: l₂ ∧
          ∀ b ∈ l₁, agentDistance s.agent_stats wloc aid <
            agentDistance s.agent_stats wloc b) ∧
        (aid ≠ "" →
          dget? m aid = some (s.packages.filter (assignedTo s aid)) ∧
          p ∈ s.packages.filter (assignedTo s aid)) ∧
        (aid = "" → ∀ e ∈ m, p ∉ e.2) := by
  obtain ⟨m, hok, hkeys, hlists⟩ := assign_filter s hst hres
  refine ⟨m, hok, ?_⟩
  intro p hp
  have hpres := hres p hp
  rcases hwl : resolveWh s.warehouses p.warehouse with _ | wloc
  · rw [hwl] at hpres
    simp at hpres
  · have hkne : dkeys s.agents ≠ [] := by
      intro hc
      exact hne (List.map_eq_nil_iff.mp hc)
    have hsome := firstStrictMin_isSome_of_ne_nil
      (agentDistance s.agent_stats wloc) hkne
    rcases hfs : firstStrictMin (agentDistance s.agent_stats wloc)
        (fun _ => True) (dkeys s.agents) with _ | aid
    · rw [hfs] at hsome
      simp at hsome
    · have hpn : pkgNearest s p = some aid := by
        rw [pkgNearest, hwl]
        exact hfs
      obtain ⟨-, hmin, l₁, l₂, hsplit, hstrict⟩ :=
        firstStrictMin_spec _ _ _ _ hfs
      refine ⟨wloc, aid, rfl, hpn, ?_, ?_, ⟨l₁, l₂, hsplit, ?_⟩, ?_, ?_⟩
      · rw [find_nearest_eq_pkgNearest hst hwl, hpn]
      · intro b hb
        exact hmin b hb trivial
      · intro b hb
        exact hstrict b hb trivial
      · intro haid
        have hm : aid ∈ dkeys s.agents := pkgNearest_mem hpn
        refine ⟨hlists aid hm, ?_⟩
        rw [List.mem_filter]
        exact ⟨hp, by simp [assignedTo, hpn, haid]⟩
      · intro haid e he
        intro hpe
        have he2 := assign_mem_values hst hres hnd hok he
        rw [he2, List.mem_filter] at hpe
        have := hpe.2
        rw [assignedTo, decide_eq_true_eq] at this
        obtain ⟨hc, hne1⟩ := this
        rw [hpn, haid] at hc
        exact hne1 (Option.some.inj hc).symm

/-- Witness for C1: the §8.2 scenario — `A1` sits on the warehouse, `A2`
is strictly farther, so the package lands in `A1`'s list. -/
theorem claimC1_assignment_witness :
    statsComplete scenA ∧ allResolve scenA ∧ (dkeys scenA.agents).Nodup ∧
      scenA.agents ≠ [] ∧
      ∃ m, assign_packages_to_agents scenA = .ok m ∧
        dget? m "A1" = some [⟨"P1", some "W1", (5, 5)⟩] := by
  have h1 : statsComplete scenA := by
    intro aid h
    simp [scenA, dkeys] at h
    rcases h with rfl | rfl <;> simp [scenA, _initialize_agent_stats, dget?]
  have h2 : allResolve scenA := by
    intro p hp
    simp [scenA] at hp
    subst hp
    simp [resolveWh, scenA, dget?]
  have h3 : (dkeys scenA.agents).Nodup := by
    simp [scenA, dkeys]
  have h4 : scenA.agents ≠ [] := by
    simp [scenA]
  obtain ⟨m, hok, hall⟩ := claimC1_assignment scenA h1 h2 h3 h4
  have hp : (⟨"P1", some "W1", (5, 5)⟩ : Pkg) ∈ scenA.packages := by
    simp [scenA]
  obtain ⟨wloc, aid, hwl, hpn, -, -, -, hassigned, -⟩ := hall _ hp
  rw [scenA_nearest] at hpn
  have haid : aid = "A1" := (Option.some.inj hpn).symm
  subst haid
  obtain ⟨hget, -⟩ := hassigned (by simp)
  refine ⟨h1, h2, h3, h4, m, hok, ?_⟩
  rw [hget]
  have : scenA.packages.filter (assignedTo scenA "A1") =
      [⟨"P1", some "W1", (5, 5)⟩] := by
    rw [show scenA.packages = [⟨"P1", some "W1", (5, 5)⟩] from rfl]
    simp [List.filter, assignedTo, scenA_nearest]
  rw [this]

/-- C7: with zero agents, assignment succeeds with an empty map (every
package silently dropped, unassigned count = total package count), the
simulation leaves the state untouched (no `AgentStats` created or mutated),
and the report is empty with no best agent designated. -/
theorem claimC7_empty_fleet (s : Sys) (hag : s.agents = [])
    (hst : s.agent_stats = []) (hres : allResolve s) (u : ℕ → ℚ) (k : ℕ) :
    assign_packages_to_agents s = .ok [] ∧
    simulate_delivery s false false u k = .ok (s, k) ∧
    unassigned_count s [] = s.packages.length ∧
    calculate_efficiency s = [] ∧
    dget? (calculate_efficiency s) "best_agent" = none ∧
    (generate_report s).1 = [] := by
  have hfn : ∀ wloc, find_nearest_agent s wloc = .ok none := by
    intro wloc
    rw [find_nearest_agent, hag]
    rfl
  have hassign : ∀ ps, (∀ p ∈ ps, (resolveWh s.warehouses p.warehouse).isSome) →
      assignAux s ps [] = .ok [] := by
    intro ps
    induction ps with
    | nil => intro _; rfl
    | cons p rest ih =>
      intro h
      have hp := h p (List.mem_cons_self _ _)
      rcases hwl : resolveWh s.warehouses p.warehouse with _ | wloc
      · rw [hwl] at hp
        simp at hp
      · simp only [assignAux, hwl, hfn wloc]
        exact ih (fun q hq => h q (List.mem_cons_of_mem _ hq))
  have hA : assign_packages_to_agents s = .ok [] := by
    rw [assign_packages_to_agents, hag]
    exact hassign s.packages hres
  have hE : calculate_efficiency s = [] := by
    simp [calculate_efficiency, reportEntries, hst, bestScanAux]
  refine ⟨hA, ?_, by simp [unassigned_count], hE, by simp [hE, dget?], ?_⟩
  · rw [simulate_delivery]
    simp only [if_neg (Bool.false_ne_true)]
    rw [hA]
    rfl
  · simp [generate_report, hE]

/-- Witness for C7 at a concrete catalog with one package and no agents. -/
theorem claimC7_empty_fleet_witness :
    scen0.agents = [] ∧ scen0.agent_stats = [] ∧ allResolve scen0 ∧
      (assign_packages_to_agents scen0 = .ok [] ∧
        simulate_delivery scen0 false false zeroStream 0 = .ok (scen0, 0) ∧
        unassigned_count scen0 [] = 1 ∧
        calculate_efficiency scen0 = []) := by
  have h1 : scen0.agents = [] := rfl
  have h2 : scen0.agent_stats = [] := rfl
  have h3 : allResolve scen0 := by
    intro p hp
    simp [scen0] at hp
    subst hp
    simp [resolveWh, scen0, dget?]
  obtain ⟨hA, hS, hU, hE, -, -⟩ := claimC7_empty_fleet scen0 h1 h2 h3 zeroStream 0
  exact ⟨h1, h2, h3, hA, hS, by simpa [scen0] using hU, hE⟩

/-! ## Package parsing (C8, C9) -/

theorem dget?_append {α : Type} (d d₂ : List (String × α)) (k : String) :
    dget? (d ++ d₂) k =
      match dget? d k with
      | some v => some v
      | none => dget? d₂ k := by
  induction d with
  | nil => simp [dget?]
  | cons e rest ih =>
    obtain ⟨k', v⟩ := e
    by_cases h : k' = k <;> simp [dget?, h, ih]

/-- C8, counterexample: a record lacking *both* accepted warehouse-reference
fields loads without any error — its warehouse reference simply becomes
`None` — refuting "loading fails with a `MissingFieldError` for any package
record that lacks both accepted warehouse-reference field names". -/
theorem claimC8_counterexample :
    _parse_packages [⟨some "P1", none, none, some ((0 : ℚ), (0 : ℚ))⟩] =
      .ok [⟨"P1", none, ((0 : ℚ), (0 : ℚ))⟩] := rfl

/-- C8 (amended): loading fails exactly when some record lacks `id` or
`destination`; a record lacking both warehouse fields loads with a `None`
reference, and an unresolvable warehouse reference only fails later, at
assignment time (the `self.warehouses[...]` lookup), not at load. -/
theorem claimC8_load_errors :
    (∀ rs : List PkgRecord,
      (∃ ps, _parse_packages rs = .ok ps) ↔
        ∀ r ∈ rs, r.idField.isSome ∧ r.destinationField.isSome) ∧
    (∀ (s : Sys) (p : Pkg) (rest : List Pkg), s.packages = p :: rest →
      resolveWh s.warehouses p.warehouse = none →
      assign_packages_to_agents s = .error "KeyError") := by
  constructor
  · intro rs
    induction rs with
    | nil => simp [_parse_packages]
    | cons r rest ih =>
      constructor
      · rintro ⟨ps, hps⟩
        rcases hid : r.idField with _ | i
        · rw [_parse_packages, hid] at hps
          rcases r.destinationField <;> simp at hps
        · rcases hdest : r.destinationField with _ | d
          · rw [_parse_packages, hid, hdest] at hps
            simp at hps
          · rw [_parse_packages, hid, hdest] at hps
            rcases hrest : _parse_packages rest with e | ps'
            · rw [hrest] at hps
              simp at hps
            · intro x hx
              rcases List.mem_cons.mp hx with rfl | hx
              · simp [hid, hdest]
              · exact (ih.mp ⟨ps', hrest⟩) x hx
      · intro h
        have hr := h r (List.mem_cons_self _ _)
        rcases hid : r.idField with _ | i
        · rw [hid] at hr
          simp at hr
        · rcases hdest : r.destinationField with _ | d
          · rw [hdest] at hr
            simp at hr
          · obtain ⟨ps', hrest⟩ :=
              ih.mpr (fun x hx => h x (List.mem_cons_of_mem _ hx))
            exact ⟨⟨i, pyOr r.warehouseIdField r.warehouseField, d⟩ :: ps',
              by rw [_parse_packages, hid, hdest, hrest]⟩
  · intro s p rest hpk hwh
    rw [assign_packages_to_agents, hpk]
    simp only [assignAux, hwh]

/-- Witness for C8: a record with `id` and `destination` parses, and the
`scenU` catalog (whose package references the unknown warehouse `W9`)
fails at assignment with a `KeyError`. -/
theorem claimC8_load_errors_witness :
    (∃ ps, _parse_packages [⟨some "P1", none, none,
      some ((0 : ℚ), (0 : ℚ))⟩] = .ok ps) ∧
    scenU.packages = [⟨"P1", some "W9", ((1 : ℚ), (1 : ℚ))⟩] ∧
    resolveWh scenU.warehouses (some "W9") = none ∧
    assign_packages_to_agents scenU = .error "KeyError" := by
  refine ⟨?_, rfl, rfl, ?_⟩
  · exact (claimC8_load_errors.1 _).mpr (by simp)
  · exact claimC8_load_errors.2 scenU _ [] rfl rfl

/-- C9, counterexample: a record whose `warehouse_id` is present but *empty*
takes its reference from `warehouse` instead — Python's `or` skips falsy
values — refuting "whenever `warehouse_id` is present in the record, its
value (whatever it is) becomes the package's warehouse reference". -/
theorem claimC9_counterexample :
    _parse_packages [⟨some "P1", some "", some "W1",
      some ((0 : ℚ), (0 : ℚ))⟩] =
      .ok [⟨"P1", some "W1", ((0 : ℚ), (0 : ℚ))⟩] ∧
    (some "W1" : Option String) ≠ some "" := by
  constructor
  · simp [_parse_packages, pyOr]
  · simp

/-- C9 (amended): the first present field with a *truthy* (non-empty) value
wins: a present non-empty `warehouse_id` becomes the reference; when
`warehouse_id` is absent or empty, the (possibly absent) `warehouse` field
is used instead. -/
theorem claimC9_normalisation (r : PkgRecord) (rest : List PkgRecord)
    (i : String) (d : Point) (ps : List Pkg) (hid : r.idField = some i)
    (hdest : r.destinationField = some d)
    (hrest : _parse_packages rest = .ok ps) :
    (∀ w, r.warehouseIdField = some w → w ≠ "" →
      _parse_packages (r :: rest) = .ok (⟨i, some w, d⟩ :: ps)) ∧
    (r.warehouseIdField = some "" ∨ r.warehouseIdField = none →
      _parse_packages (r :: rest) = .ok (⟨i, r.warehouseField, d⟩ :: ps)) := by
  constructor
  · intro w hw hne
    rw [_parse_packages, hid, hdest, hrest]
    simp [pyOr, hw, hne]
  · rintro (hw | hw) <;>
    · rw [_parse_packages, hid, hdest, hrest]
      simp [pyOr, hw]

/-- Witness for C9 at two concrete records: non-empty `warehouse_id` wins;
empty `warehouse_id` defers to `warehouse`. -/
theorem claimC9_normalisation_witness :
    _parse_packages [⟨some "P1", some "W2", some "W3",
      some ((1 : ℚ), (2 : ℚ))⟩] =
      .ok [⟨"P1", some "W2", ((1 : ℚ), (2 : ℚ))⟩] ∧
    _parse_packages [⟨some "P1", some "", some "W3",
      some ((1 : ℚ), (2 : ℚ))⟩] =
      .ok [⟨"P1", some "W3", ((1 : ℚ), (2 : ℚ))⟩] := by
  constructor
  · exact (claimC9_normalisation _ [] _ _ _ rfl rfl rfl).1 "W2" rfl (by simp)
  · exact (claimC9_normalisation _ [] _ _ _ rfl rfl rfl).2 (Or.inl rfl)

/-! ## Mid-day agent injection (C6) -/

/-- C6, counterexample: in `scenC` the only agent is already named `A2`,
exactly the identifier synthesised for a one-agent fleet; injection
*overwrites* that agent (same agent count, location reset, stats reset)
instead of adding a non-colliding new agent. -/
theorem claimC6_counterexample :
    scenC.packages ≠ [] ∧
    scenC.agents.length = 1 ∧
    (_add_new_agent_mid_day scenC zeroStream 0).1.agents.length = 1 ∧
    dget? scenC.agents "A2" = some ((1 : ℚ), (2 : ℚ)) ∧
    dget? (_add_new_agent_mid_day scenC zeroStream 0).1.agents "A2" =
      some ((0 : ℚ), (0 : ℚ)) := by
  have h2s : ("A" ++ toString 2 : String) = "A2" := by decide
  have hadd : (_add_new_agent_mid_day scenC zeroStream 0).1.agents =
      [("A2", ((0 : ℚ), (0 : ℚ)))] := by
    norm_num [_add_new_agent_mid_day, uniform, zeroStream, scenC, h2s, dset]
  refine ⟨by decide, by decide, ?_, by decide, ?_⟩
  · rw [hadd]
    rfl
  · rw [hadd]
    rfl

/-- C6 (amended): when injection is enabled with at least one package, the
agent `f"A{len(agents)+1}"` is written into the dicts with fresh stats and a
uniform-random location in `[0,100)²`; *provided that identifier is not
already taken*, this appends exactly one new agent, leaves every other
agent's stats untouched, and the new agent is part of the agent list that
assignment scans in the same run (injection runs strictly before
assignment inside `simulate_delivery`).  With the identifier taken, the
existing agent is overwritten instead (see the counterexample).  With no
packages the state is unchanged. -/
theorem claimC6_injection (s : Sys) (u : ℕ → ℚ) (k : ℕ)
    (hpk : s.packages ≠ [])
    (hfa : new_agent_idOf s ∉ dkeys s.agents)
    (hfs2 : new_agent_idOf s ∉ dkeys s.agent_stats)
    (hu : ∀ n, 0 ≤ u n ∧ u n < 1) :
    ∃ loc : Point,
      (_add_new_agent_mid_day s u k).1.agents =
        s.agents ++ [(new_agent_idOf s, loc)] ∧
      (_add_new_agent_mid_day s u k).1.agent_stats =
        s.agent_stats ++ [(new_agent_idOf s, ⟨0, 0, loc, []⟩)] ∧
      (_add_new_agent_mid_day s u k).1.agents.length = s.agents.length + 1 ∧
      0 ≤ loc.1 ∧ loc.1 < 100 ∧ 0 ≤ loc.2 ∧ loc.2 < 100 ∧
      (_add_new_agent_mid_day s u k).2 = k + 2 ∧
      (_add_new_agent_mid_day s u k).1.warehouses = s.warehouses ∧
      (_add_new_agent_mid_day s u k).1.packages = s.packages ∧
      (∀ aid, aid ≠ new_agent_idOf s →
        dget? (_add_new_agent_mid_day s u k).1.agent_stats aid =
          dget? s.agent_stats aid) ∧
      dget? (_add_new_agent_mid_day s u k).1.agent_stats (new_agent_idOf s) =
        some ⟨0, 0, loc, []⟩ ∧
      new_agent_idOf s ∈ dkeys (_add_new_agent_mid_day s u k).1.agents ∧
      (∀ enable, simulate_delivery s enable true u k =
        match assign_packages_to_agents
            (_add_new_agent_mid_day s u k).1 with
        | .error e => .error e
        | .ok m => processAgents enable u (_add_new_agent_mid_day s u k).1
            (_add_new_agent_mid_day s u k).2 m) ∧
      (∀ t : Sys, t.packages = [] → _add_new_agent_mid_day t u k = (t, k)) := by
  have hlen : s.packages.length > 0 := List.length_pos.mpr hpk
  simp only [new_agent_idOf] at hfa hfs2 ⊢
  refine ⟨((0 : ℚ) + (100 - 0) * u k, (0 : ℚ) + (100 - 0) * u (k + 1)),
    ?_, ?_, ?_, ?_, ?_, ?_, ?_, ?_, ?_, ?_, ?_, ?_, ?_, ?_, ?_⟩
  · simp only [_add_new_agent_mid_day, if_pos hlen, uniform]
    exact dset_of_not_mem _ hfa
  · simp only [_add_new_agent_mid_day, if_pos hlen, uniform]
    exact dset_of_not_mem _ hfs2
  · simp only [_add_new_agent_mid_day, if_pos hlen, uniform]
    rw [dset_of_not_mem _ hfa]
    simp
  · show (0 : ℚ) ≤ 0 + (100 - 0) * u k
    nlinarith [(hu k).1]
  · show (0 : ℚ) + (100 - 0) * u k < 100
    nlinarith [(hu k).1, (hu k).2]
  · show (0 : ℚ) ≤ 0 + (100 - 0) * u (k + 1)
    nlinarith [(hu (k + 1)).1]
  · show (0 : ℚ) + (100 - 0) * u (k + 1) < 100
    nlinarith [(hu (k + 1)).1, (hu (k + 1)).2]
  · simp only [_add_new_agent_mid_day, if_pos hlen, uniform]
  · simp only [_add_new_agent_mid_day, if_pos hlen, uniform]
  · simp only [_add_new_agent_mid_day, if_pos hlen, uniform]
  · intro aid haid
    simp only [_add_new_agent_mid_day, if_pos hlen, uniform]
    exact dget?_dset_ne _ haid
  · simp only [_add_new_agent_mid_day, if_pos hlen, uniform]
    exact dget?_dset_self _ _ _
  · simp only [_add_new_agent_mid_day, if_pos hlen, uniform]
    rw [dset_of_not_mem _ hfa]
    simp [dkeys]
  · intro enable
    rfl
  · intro t ht
    rw [_add_new_agent_mid_day, ht]
    simp

/-- Witness for C6: in the §8.2 scenario the synthesised identifier `A3` is
fresh, so the fleet grows from 2 to 3 agents. -/
theorem claimC6_injection_witness :
    scenA.packages ≠ [] ∧ new_agent_idOf scenA ∉ dkeys scenA.agents ∧
      new_agent_idOf scenA ∉ dkeys scenA.agent_stats ∧
      (∀ n, 0 ≤ zeroStream n ∧ zeroStream n < 1) ∧
      (_add_new_agent_mid_day scenA zeroStream 0).1.agents.length = 3 := by
  have h1 : scenA.packages ≠ [] := by simp [scenA]
  have h2 : new_agent_idOf scenA ∉ dkeys scenA.agents := by decide
  have h3 : new_agent_idOf scenA ∉ dkeys scenA.agent_stats := by
    intro hc
    simp only [scenA, _initialize_agent_stats, dkeys, List.map_map,
      List.map_cons, List.map_nil] at hc
    revert hc
    decide
  have h4 : ∀ n, 0 ≤ zeroStream n ∧ zeroStream n < 1 := by
    intro n
    simp [zeroStream]
  obtain ⟨loc, -, -, hlen, -⟩ := claimC6_injection scenA zeroStream 0 h1 h2 h3 h4
  refine ⟨h1, h2, h3, h4, ?_⟩
  rw [hlen]
  decide

/-! ## Grouping lemmas -/

theorem appendAt_sum (acc : List (Option String × List Pkg))
    (w : Option String) (p : Pkg) :
    ((appendAt acc w p).map (fun e => e.2.length)).sum =
      (acc.map (fun e => e.2.length)).sum + 1 := by
  induction acc with
  | nil => simp [appendAt]
  | cons e rest ih =>
    obtain ⟨w', l⟩ := e
    by_cases h : w' = w
    · simp [appendAt, h]
      omega
    · simp [appendAt, h, ih]
      omega

theorem groupByWarehouse_sum (pkgs : List Pkg) :
    ((groupByWarehouse pkgs).map (fun e => e.2.length)).sum = pkgs.length := by
  suffices h : ∀ (acc : List (Option String × List Pkg)),
      ((pkgs.foldl (fun acc p => appendAt acc p.warehouse p) acc).map
        (fun e => e.2.length)).sum =
      (acc.map (fun e => e.2.length)).sum + pkgs.length by
    simpa using h []
  induction pkgs with
  | nil => intro acc; simp
  | cons p rest ih =>
    intro acc
    rw [List.foldl_cons, ih, appendAt_sum, List.length_cons]
    omega

theorem mem_appendAt_keys {acc : List (Option String × List Pkg)}
    {w : Option String} {p : Pkg} {g : Option String × List Pkg}
    (h : g ∈ appendAt acc w p) : (∃ g₀ ∈ acc, g.1 = g₀.1) ∨ g.1 = w := by
  induction acc with
  | nil =>
    simp [appendAt] at h
    simp [h]
  | cons e rest ih =>
    obtain ⟨w', l⟩ := e
    by_cases hw : w' = w
    · simp only [appendAt, if_pos hw, List.mem_cons] at h
      rcases h with rfl | h
      · exact Or.inr hw
      · exact Or.inl ⟨g, List.mem_cons_of_mem _ h, rfl⟩
    · simp only [appendAt, if_neg hw, List.mem_cons] at h
      rcases h with rfl | h
      · exact Or.inl ⟨(w', l), List.mem_cons_self _ _, rfl⟩
      · rcases ih h with ⟨g₀, hg₀, heq⟩ | heq
        · exact Or.inl ⟨g₀, List.mem_cons_of_mem _ hg₀, heq⟩
        · exact Or.inr heq

theorem groupByWarehouse_keys {pkgs : List Pkg} (Q : Option String → Prop)
    (hq : ∀ p ∈ pkgs, Q p.warehouse) :
    ∀ g ∈ groupByWarehouse pkgs, Q g.1 := by
  suffices h : ∀ (acc : List (Option String × List Pkg)),
      (∀ g ∈ acc, Q g.1) → (∀ p ∈ pkgs, Q p.warehouse) →
      ∀ g ∈ pkgs.foldl (fun acc p => appendAt acc p.warehouse p) acc, Q g.1 by
    exact h [] (by simp) hq
  clear hq
  induction pkgs with
  | nil => intro acc hacc _ g hg; exact hacc g hg
  | cons p rest ih =>
    intro acc hacc hq g hg
    rw [List.foldl_cons] at hg
    refine ih _ ?_ (fun q hqm => hq q (List.mem_cons_of_mem _ hqm)) g hg
    intro g' hg'
    rcases mem_appendAt_keys hg' with ⟨g₀, hg₀, heq⟩ | heq
    · exact heq ▸ hacc g₀ hg₀
    · exact heq ▸ hq p (List.mem_cons_self _ _)

/-! ## The delays-disabled simulation -/

theorem simulate_random_delay_false (u : ℕ → ℚ) (k : ℕ) :
    simulate_random_delay false u k = (1, k) := rfl

theorem whLoc_eq {W : List (String × Point)} {wid : Option String}
    {wloc : Point} (h : resolveWh W wid = some wloc) : whLoc W wid = wloc := by
  simp [whLoc, h]

theorem deliverPackages_false_spec (u : ℕ → ℚ) :
    ∀ (ps : List Pkg) (st : AgentStats) (cur : Point) (k : ℕ),
      deliverPackages false u st cur k ps =
        ({ st with
            packages_delivered := st.packages_delivered + ps.length,
            total_distance := st.total_distance +
              ((deliverySteps cur ps).map RouteStep.distance).sum,
            route_history := st.route_history ++ deliverySteps cur ps },
          walkEnd cur ps, k) := by
  intro ps
  induction ps with
  | nil =>
    intro st cur k
    cases st
    simp [deliverPackages, deliverySteps, walkEnd]
  | cons p rest ih =>
    intro st cur k
    rw [deliverPackages, simulate_random_delay_false]
    rw [ih]
    cases st
    simp only [deliverySteps, walkEnd, List.map_cons, List.sum_cons,
      List.append_assoc, List.cons_append, List.nil_append, Rat.cast_one,
      mul_one, List.length_cons, Prod.mk.injEq, AgentStats.mk.injEq,
      and_true, true_and]
    constructor
    · omega
    · ring

theorem processGroups_false_spec (u : ℕ → ℚ) (W : List (String × Point)) :
    ∀ (gs : List (Option String × List Pkg)),
      (∀ g ∈ gs, (resolveWh W g.1).isSome) →
      ∀ (st : AgentStats) (cur : Point) (k : ℕ),
      processGroups false u W st cur k gs =
        .ok ({ st with
            packages_delivered := st.packages_delivered +
              (gs.map (fun g => g.2.length)).sum,
            total_distance := st.total_distance +
              ((groupSteps W cur gs).map RouteStep.distance).sum,
            current_location := groupsCurrent W st.current_location gs,
            route_history := st.route_history ++ groupSteps W cur gs },
          groupsEnd W cur gs, k) := by
  intro gs
  induction gs with
  | nil =>
    intro _ st cur k
    cases st
    simp [processGroups, groupSteps, groupsEnd, groupsCurrent]
  | cons g rest ih =>
    intro hres st cur k
    obtain ⟨wid, wpkgs⟩ := g
    have hg := hres _ (List.mem_cons_self _ _)
    rcases hwl : resolveWh W wid with _ | wloc
    · rw [hwl] at hg
      simp at hg
    · have hwloc : whLoc W wid = wloc := whLoc_eq hwl
      have hrest : ∀ g ∈ rest, (resolveWh W g.1).isSome :=
        fun g hgm => hres g (List.mem_cons_of_mem _ hgm)
      simp only [processGroups, hwl, simulate_random_delay_false]
      rw [deliverPackages_false_spec]
      dsimp only
      rw [ih hrest]
      simp only [groupSteps, groupsEnd, groupsCurrent, hwloc]
      cases st
      simp only [Except.ok.injEq, Prod.mk.injEq, AgentStats.mk.injEq,
        Rat.cast_one, mul_one, List.map_cons, List.sum_cons, List.map_append,
        List.sum_append, List.append_assoc, List.cons_append, List.nil_append,
        and_true, true_and]
      constructor
      · omega
      · ring

theorem processOneAgent_false_spec (u : ℕ → ℚ) (s : Sys) (k : ℕ)
    (aid : String) (pkgs : List Pkg) {st₀ : AgentStats}
    (hstat : dget? s.agent_stats aid = some st₀)
    (hres : ∀ g ∈ groupByWarehouse pkgs,
      (resolveWh s.warehouses g.1).isSome) :
    processOneAgent false u s k aid pkgs = .ok
      ({ s with
          agent_stats :=
            dset s.agent_stats aid (agentOutcome s.warehouses st₀ pkgs) },
        k) := by
  rw [processOneAgent, hstat]
  dsimp only
  rw [processGroups_false_spec u s.warehouses _ hres st₀ st₀.current_location k]
  dsimp only
  rw [agentOutcome, groupByWarehouse_sum]

theorem processAgents_false_spec (u : ℕ → ℚ) :
    ∀ (m : List (String × List Pkg)) (s : Sys) (k : ℕ),
      (dkeys m).Nodup →
      (∀ e ∈ m, (dget? s.agent_stats e.1).isSome ∧
        ∀ g ∈ groupByWarehouse e.2, (resolveWh s.warehouses g.1).isSome) →
      ∃ s', processAgents false u s k m = .ok (s', k) ∧
        s'.warehouses = s.warehouses ∧ s'.agents = s.agents ∧
        s'.packages = s.packages ∧
        dkeys s'.agent_stats = dkeys s.agent_stats ∧
        (∀ aid, aid ∉ dkeys m →
          dget? s'.agent_stats aid = dget? s.agent_stats aid) ∧
        (∀ e ∈ m, e.2 = [] →
          dget? s'.agent_stats e.1 = dget? s.agent_stats e.1) ∧
        (∀ e ∈ m, e.2 ≠ [] → ∃ st₀,
          dget? s.agent_stats e.1 = some st₀ ∧
          dget? s'.agent_stats e.1 =
            some (agentOutcome s.warehouses st₀ e.2)) := by
  intro m
  induction m with
  | nil =>
    intro s k _ _
    exact ⟨s, rfl, rfl, rfl, rfl, rfl, fun _ _ => rfl, by simp, by simp⟩
  | cons hd rest ih =>
    intro s k hnd hmem
    obtain ⟨aid, pkgs⟩ := hd
    simp only [dkeys, List.map_cons, List.nodup_cons] at hnd
    have hnotin : aid ∉ dkeys rest := by simpa [dkeys] using hnd.1
    have hhd := hmem _ (List.mem_cons_self _ _)
    rcases hstat : dget? s.agent_stats aid with _ | st₀
    · rw [hstat] at hhd
      simp at hhd
    · by_cases hpk : pkgs = []
      · subst hpk
        have hskip : processAgents false u s k ((aid, ([] : List Pkg)) :: rest) =
            processAgents false u s k rest := by
          simp [processAgents]
        obtain ⟨s', hok, hw, ha, hp, hk, huntouched, hempty, hfull⟩ :=
          ih s k (by simpa [dkeys] using hnd.2)
            (fun e he => hmem e (List.mem_cons_of_mem _ he))
        refine ⟨s', by rw [hskip]; exact hok, hw, ha, hp, hk,
          ?_, ?_, ?_⟩
        · intro aid' h'
          exact huntouched aid' (by
            simp only [dkeys, List.map_cons, List.mem_cons] at h'
            intro hc
            exact h' (Or.inr (by simpa [dkeys] using hc)))
        · intro e he hnil
          rcases List.mem_cons.mp he with rfl | he
          · exact huntouched aid hnotin
          · exact hempty e he hnil
        · intro e he hnnil
          rcases List.mem_cons.mp he with rfl | he
          · exact absurd rfl hnnil
          · exact hfull e he hnnil
      · have hone := processOneAgent_false_spec u s k aid pkgs hstat hhd.2
        have hmem₁ : aid ∈ dkeys s.agent_stats :=
          dget?_isSome_iff.mp (by rw [hstat]; rfl)
        have hrest₂ : ∀ e ∈ rest,
            (dget? (dset s.agent_stats aid
              (agentOutcome s.warehouses st₀ pkgs)) e.1).isSome ∧
            ∀ g ∈ groupByWarehouse e.2, (resolveWh s.warehouses g.1).isSome := by
          intro e he
          have hne : e.1 ≠ aid := by
            intro hc
            exact hnotin (hc ▸ List.mem_map_of_mem Prod.fst he)
          have hthis := hmem e (List.mem_cons_of_mem _ he)
          constructor
          · rw [dget?_dset_ne _ hne]
            exact hthis.1
          · exact hthis.2
        obtain ⟨s', hok, hw, ha, hp, hk, huntouched, hempty, hfull⟩ :=
          ih ({ s with
              agent_stats :=
                dset s.agent_stats aid (agentOutcome s.warehouses st₀ pkgs) })
            k (by simpa [dkeys] using hnd.2) hrest₂
        refine ⟨s', ?_, by rw [hw], by rw [ha], by rw [hp], ?_, ?_, ?_, ?_⟩
        · show processAgents false u s k ((aid, pkgs) :: rest) = _
          simp only [processAgents, if_neg hpk]
          rw [hone]
          exact hok
        · rw [hk]
          show dkeys (dset s.agent_stats aid _) = dkeys s.agent_stats
          rw [dkeys_dset_of_mem _ hmem₁]
        · intro aid' h'
          simp only [dkeys, List.map_cons, List.mem_cons, not_or] at h'
          rw [huntouched aid' (by simpa [dkeys] using h'.2)]
          show dget? (dset s.agent_stats aid _) aid' = _
          rw [dget?_dset_ne _ h'.1]
        · intro e he hnil
          rcases List.mem_cons.mp he with rfl | he
          · exact absurd hnil hpk
          · have hne : e.1 ≠ aid := by
              intro hc
              exact hnotin (hc ▸ List.mem_map_of_mem Prod.fst he)
            rw [hempty e he hnil]
            show dget? (dset s.agent_stats aid _) e.1 = _
            rw [dget?_dset_ne _ hne]
        · intro e he hnnil
          rcases List.mem_cons.mp he with rfl | he
          · refine ⟨st₀, hstat, ?_⟩
            rw [huntouched aid hnotin]
            exact dget?_dset_self _ _ _
          · have hne : e.1 ≠ aid := by
              intro hc
              exact hnotin (hc ▸ List.mem_map_of_mem Prod.fst he)
            obtain ⟨st₁, hst₁, hst₁'⟩ := hfull e he hnnil
            rw [show dget? (dset s.agent_stats aid _) e.1 =
                dget? s.agent_stats e.1 from dget?_dset_ne _ hne] at hst₁
            exact ⟨st₁, hst₁, hst₁'⟩

/-! ## Delivered counts, for either delay mode -/

theorem dget?_dset_isSome {α : Type} {d : List (String × α)} {k k' : String}
    (v : α) (h : (dget? d k').isSome) : (dget? (dset d k v) k').isSome := by
  by_cases hk : k' = k
  · subst hk
    rw [dget?_dset_self]
    rfl
  · rw [dget?_dset_ne _ hk]
    exact h

theorem deliverPackages_delivered (enable : Bool) (u : ℕ → ℚ) :
    ∀ (ps : List Pkg) (st : AgentStats) (cur : Point) (k : ℕ),
      (deliverPackages enable u st cur k ps).1.packages_delivered =
        st.packages_delivered + ps.length := by
  intro ps
  induction ps with
  | nil => intro st cur k; rfl
  | cons p rest ih =>
    intro st cur k
    rw [deliverPackages, ih]
    simp only [List.length_cons]
    omega

theorem processGroups_delivered (enable : Bool) (u : ℕ → ℚ)
    (W : List (String × Point)) :
    ∀ (gs : List (Option String × List Pkg)),
      (∀ g ∈ gs, (resolveWh W g.1).isSome) →
      ∀ (st : AgentStats) (cur : Point) (k : ℕ),
      ∃ st' cur' k', processGroups enable u W st cur k gs =
          .ok (st', cur', k') ∧
        st'.packages_delivered = st.packages_delivered +
          (gs.map (fun g => g.2.length)).sum := by
  intro gs
  induction gs with
  | nil =>
    intro _ st cur k
    exact ⟨st, cur, k, rfl, by simp⟩
  | cons g rest ih =>
    intro hres st cur k
    obtain ⟨wid, wpkgs⟩ := g
    have hg := hres _ (List.mem_cons_self _ _)
    rcases hwl : resolveWh W wid with _ | wloc
    · rw [hwl] at hg
      simp at hg
    · have hrest : ∀ g ∈ rest, (resolveWh W g.1).isSome :=
        fun g hgm => hres g (List.mem_cons_of_mem _ hgm)
      simp only [processGroups, hwl]
      obtain ⟨st', cur', k', hok, hdel⟩ := ih hrest _ _ _
      refine ⟨st', cur', k', hok, ?_⟩
      rw [hdel, deliverPackages_delivered]
      simp only [List.map_cons, List.sum_cons]
      omega

theorem processOneAgent_delivered (enable : Bool) (u : ℕ → ℚ) (s : Sys)
    (k : ℕ) (aid : String) (pkgs : List Pkg) {st₀ : AgentStats}
    (hstat : dget? s.agent_stats aid = some st₀)
    (hres : ∀ g ∈ groupByWarehouse pkgs,
      (resolveWh s.warehouses g.1).isSome) :
    ∃ st' k', processOneAgent enable u s k aid pkgs = .ok
        ({ s with agent_stats := dset s.agent_stats aid st' }, k') ∧
      st'.packages_delivered = st₀.packages_delivered + pkgs.length := by
  rw [processOneAgent, hstat]
  dsimp only
  obtain ⟨st', cur', k', hok, hdel⟩ :=
    processGroups_delivered enable u s.warehouses (groupByWarehouse pkgs)
      hres st₀ st₀.current_location k
  rw [hok]
  exact ⟨{ st' with current_location := cur' }, k', rfl,
    by simpa [groupByWarehouse_sum] using hdel⟩

theorem processAgents_sum (enable : Bool) (u : ℕ → ℚ) :
    ∀ (m : List (String × List Pkg)) (s : Sys) (k : ℕ),
      (∀ e ∈ m, (dget? s.agent_stats e.1).isSome ∧
        ∀ g ∈ groupByWarehouse e.2, (resolveWh s.warehouses g.1).isSome) →
      ∃ s' k', processAgents enable u s k m = .ok (s', k') ∧
        statsDeliveredSum s' = statsDeliveredSum s +
          (m.map (fun e => e.2.length)).sum ∧
        s'.warehouses = s.warehouses ∧ s'.agents = s.agents ∧
        s'.packages = s.packages ∧
        dkeys s'.agent_stats = dkeys s.agent_stats := by
  intro m
  induction m with
  | nil =>
    intro s k _
    exact ⟨s, k, rfl, by simp, rfl, rfl, rfl, rfl⟩
  | cons hd rest ih =>
    intro s k hmem
    obtain ⟨aid, pkgs⟩ := hd
    have hhd := hmem _ (List.mem_cons_self _ _)
    rcases hstat : dget? s.agent_stats aid with _ | st₀
    · rw [hstat] at hhd
      simp at hhd
    · by_cases hpk : pkgs = []
      · subst hpk
        obtain ⟨s', k', hok, hsum, hw, ha, hp, hk⟩ :=
          ih s k (fun e he => hmem e (List.mem_cons_of_mem _ he))
        refine ⟨s', k', ?_, ?_, hw, ha, hp, hk⟩
        · simpa [processAgents] using hok
        · rw [hsum]
          simp
      · obtain ⟨st', k₁, hone, hdel⟩ :=
          processOneAgent_delivered enable u s k aid pkgs hstat hhd.2
        have hmem₁ : aid ∈ dkeys s.agent_stats :=
          dget?_isSome_iff.mp (by rw [hstat]; rfl)
        obtain ⟨s', k', hok, hsum, hw, ha, hp, hk⟩ :=
          ih ({ s with
              agent_stats := dset s.agent_stats aid st' }) k₁
            (by
              intro e he
              have hthis := hmem e (List.mem_cons_of_mem _ he)
              exact ⟨dget?_dset_isSome _ hthis.1, hthis.2⟩)
        refine ⟨s', k', ?_, ?_, by rw [hw], by rw [ha], by rw [hp], ?_⟩
        · show processAgents enable u s k ((aid, pkgs) :: rest) = _
          simp only [processAgents, if_neg hpk]
          rw [hone]
          exact hok
        · rw [hsum]
          have hbal := dset_map_sum
            (fun st : AgentStats => st.packages_delivered) st' hstat
          simp only [statsDeliveredSum, List.map_cons, List.sum_cons]
          dsimp only at hbal
          omega
        · rw [hk]
          show dkeys (dset s.agent_stats aid _) = dkeys s.agent_stats
          rw [dkeys_dset_of_mem _ hmem₁]

/-! ## Counting helpers for the completeness invariant -/

theorem dget?_init (agents : List (String × Point)) (aid : String) :
    dget? (_initialize_agent_stats agents) aid =
      (dget? agents aid).map (fun loc => (⟨0, 0, loc, []⟩ : AgentStats)) := by
  induction agents with
  | nil => rfl
  | cons e rest ih =>
    obtain ⟨k, loc⟩ := e
    have hcons : _initialize_agent_stats ((k, loc) :: rest) =
        (k, (⟨0, 0, loc, []⟩ : AgentStats)) :: _initialize_agent_stats rest :=
      rfl
    by_cases h : k = aid
    · subst h
      rw [hcons]
      simp [dget?]
    · rw [hcons]
      simp only [dget?, if_neg h]
      exact ih

theorem dkeys_init (agents : List (String × Point)) :
    dkeys (_initialize_agent_stats agents) = dkeys agents := by
  simp [dkeys, _initialize_agent_stats, List.map_map]

theorem statsDeliveredSum_init (s : Sys)
    (hinit : s.agent_stats = _initialize_agent_stats s.agents) :
    statsDeliveredSum s = 0 := by
  rw [statsDeliveredSum, hinit, _initialize_agent_stats, List.map_map]
  apply List.sum_eq_zero
  intro x hx
  rw [List.mem_map] at hx
  obtain ⟨a, -, ha⟩ := hx
  exact ha.symm

theorem dict_ext {α : Type} :
    ∀ (m : List (String × α)) (f : String → α),
      (dkeys m).Nodup → (∀ aid ∈ dkeys m, dget? m aid = some (f aid)) →
      m = (dkeys m).map (fun aid => (aid, f aid)) := by
  intro m
  induction m with
  | nil => intro f _ _; rfl
  | cons e rest ih =>
    intro f hnd h
    obtain ⟨k, v⟩ := e
    simp only [dkeys, List.map_cons, List.nodup_cons] at hnd
    have hk := h k (by simp [dkeys])
    simp only [dget?, if_pos rfl] at hk
    have hv : v = f k := Option.some.inj hk
    have hrest : rest = (dkeys rest).map (fun aid => (aid, f aid)) := by
      refine ih f (by simpa [dkeys] using hnd.2) ?_
      intro aid hmem
      have hmem' : aid ∈ List.map Prod.fst rest := hmem
      have hne : k ≠ aid := fun hc => hnd.1 (hc ▸ hmem')
      have hmem2 : aid ∈ dkeys ((k, v) :: rest) := by
        show aid ∈ k :: dkeys rest
        exact List.mem_cons_of_mem _ hmem
      have := h aid hmem2
      rw [dget?, if_neg hne] at this
      exact this
    rw [show dkeys ((k, v) :: rest) = k :: dkeys rest from rfl, List.map_cons,
      ← hrest, hv]

theorem list_sum_map_add {α : Type} (l : List α) (f g : α → ℕ) :
    (l.map (fun x => f x + g x)).sum = (l.map f).sum + (l.map g).sum := by
  induction l with
  | nil => simp
  | cons a rest ih =>
    simp [ih]
    omega

theorem sum_ite_unique (g : String → Prop) [DecidablePred g] :
    ∀ (keys : List String) (k₀ : String), keys.Nodup → k₀ ∈ keys →
      (∀ k, g k ↔ k = k₀) →
      (keys.map (fun k => if g k then 1 else 0)).sum = 1 := by
  intro keys
  induction keys with
  | nil => intro k₀ _ h; simp at h
  | cons k ks ih =>
    intro k₀ hnd hmem hg
    simp only [List.nodup_cons] at hnd
    rcases List.mem_cons.mp hmem with heq | hmem
    · simp only [List.map_cons, List.sum_cons, if_pos ((hg k).mpr heq.symm)]
      have hzero : (ks.map (fun k' => if g k' then 1 else 0)).sum = 0 := by
        apply List.sum_eq_zero
        intro x hx
        simp only [List.mem_map] at hx
        obtain ⟨k', hk', hx⟩ := hx
        rw [if_neg (fun hgk =>
          hnd.1 ((((hg k').mp hgk).trans heq) ▸ hk'))] at hx
        exact hx.symm
      rw [hzero]
    · have hne : ¬g k := by
        intro hgk
        exact hnd.1 (((hg k).mp hgk) ▸ hmem)
      simp only [List.map_cons, List.sum_cons, if_neg hne,
        ih k₀ hnd.2 hmem hg]

theorem sum_length_filter_assignedTo (s : Sys) (keys : List String)
    (hnd : keys.Nodup) :
    ∀ ps : List Pkg, (∀ p ∈ ps, ∃ k ∈ keys,
      pkgNearest s p = some k ∧ k ≠ "") →
    (keys.map (fun k => (ps.filter (assignedTo s k)).length)).sum =
      ps.length := by
  intro ps
  induction ps with
  | nil =>
    intro _
    simp
  | cons p rest ih =>
    intro h
    have hsplit : ∀ k : String, (List.filter (assignedTo s k) (p :: rest)).length =
        (if pkgNearest s p = some k ∧ k ≠ "" then 1 else 0) +
          (List.filter (assignedTo s k) rest).length := by
      intro k
      rw [List.filter_cons]
      by_cases hp : pkgNearest s p = some k ∧ k ≠ ""
      · rw [if_pos hp, if_pos (by simpa [assignedTo] using hp),
          List.length_cons]
        omega
      · rw [if_neg hp, if_neg (by simpa [assignedTo] using hp)]
        omega
    have hmap : keys.map (fun k =>
        (List.filter (assignedTo s k) (p :: rest)).length) =
        keys.map (fun k => (if pkgNearest s p = some k ∧ k ≠ "" then 1 else 0) +
          (List.filter (assignedTo s k) rest).length) := by
      apply List.map_congr_left
      intro k _
      exact hsplit k
    rw [hmap, list_sum_map_add,
      ih (fun q hq => h q (List.mem_cons_of_mem _ hq))]
    obtain ⟨k₀, hk₀, hf, hne⟩ := h p (List.mem_cons_self _ _)
    have hone : (keys.map (fun k =>
        if pkgNearest s p = some k ∧ k ≠ "" then 1 else 0)).sum = 1 := by
      refine sum_ite_unique _ keys k₀ hnd hk₀ ?_
      intro k
      constructor
      · rintro ⟨hfk, -⟩
        rw [hf] at hfk
        exact (Option.some.inj hfk).symm
      · rintro rfl
        exact ⟨hf, hne⟩
    rw [hone, List.length_cons]
    omega

/-- The sum of `generate_report` equals the stats sum whenever no agent is
literally named `best_agent`: the filter drops exactly the designator. -/
theorem reported_total_delivered_eq (s : Sys)
    (hb : "best_agent" ∉ dkeys s.agent_stats) :
    reported_total_delivered (calculate_efficiency s) = statsDeliveredSum s := by
  have hkeys : dkeys (reportEntries s) = dkeys s.agent_stats := by
    simp [dkeys, reportEntries, List.map_map]
  have hfilter : (reportEntries s).filter
      (fun kv => decide (kv.1 ≠ "best_agent")) = reportEntries s := by
    rw [List.filter_eq_self]
    intro kv hkv
    have : kv.1 ∈ dkeys (reportEntries s) := List.mem_map_of_mem Prod.fst hkv
    rw [hkeys] at this
    simp only [decide_eq_true_eq]
    intro hc
    exact hb (hc ▸ this)
  have hsum : ((reportEntries s).map (fun kv => deliveredOf kv.2)).sum =
      statsDeliveredSum s := by
    rw [reportEntries, List.map_map, statsDeliveredSum]
    rfl
  rw [reported_total_delivered, calculate_efficiency]
  rcases hbest : bestScanAux (reportEntries s) none with _ | b
  · dsimp only
    rw [hfilter, hsum]
  · dsimp only
    by_cases hbe : b = ""
    · rw [if_pos hbe, hfilter, hsum]
    · rw [if_neg hbe]
      have hnotmem : "best_agent" ∉ dkeys (reportEntries s) := by
        rw [hkeys]
        exact hb
      rw [dset_of_not_mem _ hnotmem, List.filter_append, hfilter]
      have : List.filter (fun kv => decide (kv.1 ≠ "best_agent"))
          [("best_agent", ReportVal.best b)] = [] := by
        simp [List.filter]
      rw [this, List.append_nil, hsum]

theorem statsComplete_of_init {s : Sys}
    (hinit : s.agent_stats = _initialize_agent_stats s.agents) :
    statsComplete s := by
  intro aid hmem
  rw [hinit, dget?_init]
  have h : (dget? s.agents aid).isSome := dget?_isSome_iff.mpr hmem
  rcases hag : dget? s.agents aid with _ | loc
  · rw [hag] at h
    simp at h
  · rfl

/-- C3, counterexample: `scenE` has one agent and one resolving package,
yet the package is dropped (the agent's identifier `''` is falsy), so the
reported delivered sum is 0 while the catalog holds 1 package — the
mismatch only sets the warning flag. -/
theorem claimC3_counterexample :
    scenE.agents ≠ [] ∧ allResolve scenE ∧ scenE.packages.length = 1 ∧
    ∃ s' k', simulate_delivery scenE false false zeroStream 0 = .ok (s', k') ∧
      reported_total_delivered (calculate_efficiency s') = 0 ∧
      (generate_report s').2 = true := by
  have hnd : (dkeys scenE.agents).Nodup := by simp [scenE, dkeys]
  obtain ⟨m, hok, hkeys, hlists⟩ :=
    assign_filter scenE scenE_statsComplete scenE_allResolve
  have hm : m = [("", [])] := by
    have hmk : dkeys m = [""] := by rw [hkeys]; rfl
    have hext := dict_ext m
      (fun aid => scenE.packages.filter (assignedTo scenE aid))
      (by rw [hmk]; simp)
      (fun aid hmem => hlists aid (hkeys ▸ hmem))
    rw [hext, hmk]
    simp [assignedTo]
  subst hm
  have hsim : simulate_delivery scenE false false zeroStream 0 =
      .ok (scenE, 0) := by
    have hdef : simulate_delivery scenE false false zeroStream 0 =
        match assign_packages_to_agents scenE with
        | .error e => .error e
        | .ok m => processAgents false zeroStream scenE 0 m := rfl
    rw [hdef, hok]
    simp [processAgents]
  have hb : "best_agent" ∉ dkeys scenE.agent_stats := by
    simp [scenE, dkeys, _initialize_agent_stats]
  have hrep : reported_total_delivered (calculate_efficiency scenE) = 0 := by
    rw [reported_total_delivered_eq scenE hb]
    exact statsDeliveredSum_init scenE rfl
  refine ⟨by simp [scenE], scenE_allResolve, rfl, scenE, 0, hsim, hrep, ?_⟩
  show decide (reported_total_delivered (calculate_efficiency scenE) ≠
    scenE.packages.length) = true
  rw [hrep]
  rfl

/-- C3 (amended): for every catalog with at least one agent, all of whose
identifiers are non-empty and none of which is literally named
`best_agent`, if every package's warehouse resolves then after
`simulate_delivery` the delivered counts summed by `generate_report` equal
the total package count and the warning flag is off; and `generate_report`
always returns the full report with the mismatch recorded only in the
flag — never a thrown failure. -/
theorem claimC3_completeness (s : Sys) (u : ℕ → ℚ) (k : ℕ) (enable : Bool)
    (hinit : s.agent_stats = _initialize_agent_stats s.agents)
    (hne : s.agents ≠ []) (hnd : (dkeys s.agents).Nodup)
    (hids : ∀ aid ∈ dkeys s.agents, aid ≠ "" ∧ aid ≠ "best_agent")
    (hres : allResolve s) :
    (∃ s' k', simulate_delivery s enable false u k = .ok (s', k') ∧
      s'.packages = s.packages ∧
      reported_total_delivered (calculate_efficiency s') =
        s.packages.length ∧
      (generate_report s').2 = false) ∧
    (∀ t : Sys, generate_report t = (calculate_efficiency t,
      decide (reported_total_delivered (calculate_efficiency t) ≠
        t.packages.length))) := by
  have hstC : statsComplete s := statsComplete_of_init hinit
  obtain ⟨m, hok, hkeys, hlists⟩ := assign_filter s hstC hres
  have hmhyp : ∀ e ∈ m, (dget? s.agent_stats e.1).isSome ∧
      ∀ g ∈ groupByWarehouse e.2, (resolveWh s.warehouses g.1).isSome := by
    intro e he
    have hek : e.1 ∈ dkeys s.agents :=
      hkeys ▸ List.mem_map_of_mem Prod.fst he
    refine ⟨hstC e.1 hek, ?_⟩
    have he2 := assign_mem_values hstC hres hnd hok he
    have hq : ∀ p ∈ e.2, (resolveWh s.warehouses p.warehouse).isSome = true := by
      intro q hq
      rw [he2] at hq
      exact hres q (List.mem_of_mem_filter hq)
    exact groupByWarehouse_keys
      (fun w => (resolveWh s.warehouses w).isSome = true) hq
  obtain ⟨s', k', hpok, hsum, hw, ha, hp, hkst⟩ :=
    processAgents_sum enable u m s k hmhyp
  have hsim : simulate_delivery s enable false u k = .ok (s', k') := by
    have hdef : simulate_delivery s enable false u k =
        match assign_packages_to_agents s with
        | .error e => .error e
        | .ok m => processAgents enable u s k m := rfl
    rw [hdef, hok]
    exact hpok
  have hall : ∀ p ∈ s.packages, ∃ b ∈ dkeys s.agents,
      pkgNearest s p = some b ∧ b ≠ "" := by
    intro p hp'
    have hpres := hres p hp'
    rcases hwl : resolveWh s.warehouses p.warehouse with _ | wloc
    · rw [hwl] at hpres
      simp at hpres
    · have hkne : dkeys s.agents ≠ [] :=
        fun hc => hne (List.map_eq_nil_iff.mp hc)
      have hsome := firstStrictMin_isSome_of_ne_nil
        (agentDistance s.agent_stats wloc) hkne
      rcases hfs : firstStrictMin (agentDistance s.agent_stats wloc)
          (fun _ => True) (dkeys s.agents) with _ | aid
      · rw [hfs] at hsome
        simp at hsome
      · have hpn : pkgNearest s p = some aid := by
          rw [pkgNearest, hwl]
          exact hfs
        exact ⟨aid, pkgNearest_mem hpn, hpn, (hids aid (pkgNearest_mem hpn)).1⟩
  have hsum_pkgs : (m.map (fun e => e.2.length)).sum = s.packages.length := by
    have hmeq := dict_ext m
      (fun aid => s.packages.filter (assignedTo s aid))
      (hkeys ▸ hnd) (fun aid hmem => hlists aid (hkeys ▸ hmem))
    rw [hmeq, hkeys, List.map_map]
    have := sum_length_filter_assignedTo s (dkeys s.agents) hnd s.packages hall
    rw [← this]
    rfl
  have hfinal : statsDeliveredSum s' = s.packages.length := by
    rw [hsum, statsDeliveredSum_init s hinit, hsum_pkgs]
    omega
  have hbs' : "best_agent" ∉ dkeys s'.agent_stats := by
    rw [hkst, hinit, dkeys_init]
    intro hc
    exact (hids _ hc).2 rfl
  refine ⟨⟨s', k', hsim, hp, ?_, ?_⟩, fun t => rfl⟩
  · rw [reported_total_delivered_eq s' hbs', hfinal]
  · show decide (reported_total_delivered (calculate_efficiency s') ≠
      s'.packages.length) = false
    rw [hp, reported_total_delivered_eq s' hbs', hfinal]
    simp

/-- Witness for C3 at the §8.2 scenario: one package, delivered count 1. -/
theorem claimC3_completeness_witness :
    scenA.agent_stats = _initialize_agent_stats scenA.agents ∧
    scenA.agents ≠ [] ∧ (dkeys scenA.agents).Nodup ∧
    (∀ aid ∈ dkeys scenA.agents, aid ≠ "" ∧ aid ≠ "best_agent") ∧
    allResolve scenA ∧
    ∃ s' k', simulate_delivery scenA false false zeroStream 0 = .ok (s', k') ∧
      reported_total_delivered (calculate_efficiency s') = 1 ∧
      (generate_report s').2 = false := by
  have h1 : scenA.agent_stats = _initialize_agent_stats scenA.agents := rfl
  have h2 : scenA.agents ≠ [] := by simp [scenA]
  have h3 : (dkeys scenA.agents).Nodup := by simp [scenA, dkeys]
  have h4 : ∀ aid ∈ dkeys scenA.agents, aid ≠ "" ∧ aid ≠ "best_agent" := by
    intro aid hmem
    simp [scenA, dkeys] at hmem
    rcases hmem with rfl | rfl <;> simp
  have h5 : allResolve scenA := by
    intro p hp
    simp [scenA] at hp
    subst hp
    simp [resolveWh, scenA, dget?]
  obtain ⟨⟨s', k', hsim, hpk, hrep, hflag⟩, -⟩ :=
    claimC3_completeness scenA zeroStream 0 false h1 h2 h3 h4 h5
  exact ⟨h1, h2, h3, h4, h5, s', k', hsim, by rw [hrep]; rfl, hflag⟩

/-- C2: with random delays disabled, `simulate_delivery` walks each agent
with at least one assigned package through its warehouses grouped in
first-encountered order (`groupByWarehouse`), one `to_warehouse` leg per
group followed by that group's `delivery` legs in assignment order
(`groupSteps`, whose recorded distances are the raw Euclidean leg
distances); `packages_delivered` equals the number of assigned packages,
`total_distance` is the sum of the raw leg distances, and the agent's final
recorded location is its last destination (`groupsEnd`), not its starting
point.  Agents with no assigned packages keep their fresh stats. -/
theorem claimC2_route (s : Sys) (u : ℕ → ℚ) (k : ℕ)
    (hinit : s.agent_stats = _initialize_agent_stats s.agents)
    (hnd : (dkeys s.agents).Nodup) (hres : allResolve s) :
    ∃ m s', assign_packages_to_agents s = .ok m ∧
      simulate_delivery s false false u k = .ok (s', k) ∧
      ∀ e ∈ m, ∃ loc₀ : Point,
        dget? s.agent_stats e.1 = some ⟨0, 0, loc₀, []⟩ ∧
        (e.2 ≠ [] → dget? s'.agent_stats e.1 = some
          ⟨e.2.length,
           ((groupSteps s.warehouses loc₀ (groupByWarehouse e.2)).map
             RouteStep.distance).sum,
           groupsEnd s.warehouses loc₀ (groupByWarehouse e.2),
           groupSteps s.warehouses loc₀ (groupByWarehouse e.2)⟩) ∧
        (e.2 = [] → dget? s'.agent_stats e.1 = some ⟨0, 0, loc₀, []⟩) := by
  have hstC : statsComplete s := statsComplete_of_init hinit
  obtain ⟨m, hok, hkeys, hlists⟩ := assign_filter s hstC hres
  have hmhyp : ∀ e ∈ m, (dget? s.agent_stats e.1).isSome ∧
      ∀ g ∈ groupByWarehouse e.2, (resolveWh s.warehouses g.1).isSome := by
    intro e he
    have hek : e.1 ∈ dkeys s.agents :=
      hkeys ▸ List.mem_map_of_mem Prod.fst he
    refine ⟨hstC e.1 hek, ?_⟩
    have he2 := assign_mem_values hstC hres hnd hok he
    have hq : ∀ p ∈ e.2, (resolveWh s.warehouses p.warehouse).isSome = true := by
      intro q hq
      rw [he2] at hq
      exact hres q (List.mem_of_mem_filter hq)
    exact groupByWarehouse_keys
      (fun w => (resolveWh s.warehouses w).isSome = true) hq
  obtain ⟨s', hpok, hw, ha, hp, hkst, huntouched, hempty, hfull⟩ :=
    processAgents_false_spec u m s k (hkeys ▸ hnd) hmhyp
  have hsim : simulate_delivery s false false u k = .ok (s', k) := by
    have hdef : simulate_delivery s false false u k =
        match assign_packages_to_agents s with
        | .error e => .error e
        | .ok m => processAgents false u s k m := rfl
    rw [hdef, hok]
    exact hpok
  refine ⟨m, s', hok, hsim, ?_⟩
  intro e he
  have hek : e.1 ∈ dkeys s.agents := hkeys ▸ List.mem_map_of_mem Prod.fst he
  have hloc : (dget? s.agents e.1).isSome := dget?_isSome_iff.mpr hek
  rcases hag : dget? s.agents e.1 with _ | loc₀
  · rw [hag] at hloc
    simp at hloc
  · have hst₀ : dget? s.agent_stats e.1 = some ⟨0, 0, loc₀, []⟩ := by
      rw [hinit, dget?_init, hag]
      rfl
    refine ⟨loc₀, hst₀, ?_, ?_⟩
    · intro hne
      obtain ⟨st₀, hst₀', hnew⟩ := hfull e he hne
      rw [hst₀] at hst₀'
      have heq : st₀ = ⟨0, 0, loc₀, []⟩ := (Option.some.inj hst₀').symm
      subst heq
      rw [hnew]
      simp [agentOutcome]
    · intro hnil
      rw [hempty e he hnil]
      exact hst₀

/-- Witness for C2: the §8.2 scenario.  `A1` delivers the single package:
one zero-length `to_warehouse` leg plus one `delivery` leg of length
`√50 = 7.071…`, ending at `(5,5)`; `A2` keeps its fresh stats. -/
theorem claimC2_route_witness :
    scenA.agent_stats = _initialize_agent_stats scenA.agents ∧
    (dkeys scenA.agents).Nodup ∧ allResolve scenA ∧
    ∃ m s', assign_packages_to_agents scenA = .ok m ∧
      simulate_delivery scenA false false zeroStream 0 = .ok (s', 0) ∧
      ∃ stA1, dget? s'.agent_stats "A1" = some stA1 ∧
        stA1.packages_delivered = 1 ∧
        stA1.current_location = ((5 : ℚ), (5 : ℚ)) ∧
        (7071 / 1000 : ℝ) ≤ stA1.total_distance ∧
        stA1.total_distance < (7072 / 1000 : ℝ) ∧
        stA1.route_history.length = 2 ∧
        dget? s'.agent_stats "A2" =
          some ⟨0, 0, ((10 : ℚ), (10 : ℚ)), []⟩ := by
  have h1 : scenA.agent_stats = _initialize_agent_stats scenA.agents := rfl
  have h3 : (dkeys scenA.agents).Nodup := by simp [scenA, dkeys]
  have h5 : allResolve scenA := by
    intro p hp
    simp [scenA] at hp
    subst hp
    simp [resolveWh, scenA, dget?]
  obtain ⟨m, s', hok, hsim, hall⟩ := claimC2_route scenA zeroStream 0 h1 h3 h5
  have hstC : statsComplete scenA := statsComplete_of_init h1
  obtain ⟨m₀, hok₀, hkeys₀, hlists₀⟩ := assign_filter scenA hstC h5
  have hm₀ : m = m₀ := by
    rw [hok₀] at hok
    exact (Except.ok.inj hok).symm
  subst hm₀
  have hfilA1 : scenA.packages.filter (assignedTo scenA "A1") =
      [⟨"P1", some "W1", (5, 5)⟩] := by
    rw [show scenA.packages = [⟨"P1", some "W1", (5, 5)⟩] from rfl]
    simp [List.filter, assignedTo, scenA_nearest]
  have hfilA2 : scenA.packages.filter (assignedTo scenA "A2") = [] := by
    rw [show scenA.packages = [⟨"P1", some "W1", (5, 5)⟩] from rfl]
    simp [List.filter, assignedTo, scenA_nearest]
  have hm : m = [("A1", [⟨"P1", some "W1", (5, 5)⟩]), ("A2", [])] := by
    have hmk : dkeys m = ["A1", "A2"] := by rw [hkeys₀]; rfl
    have hext := dict_ext m
      (fun aid => scenA.packages.filter (assignedTo scenA aid))
      (by rw [hmk]; simp)
      (fun aid hmem => hlists₀ aid (hkeys₀ ▸ hmem))
    rw [hext, hmk]
    simp [hfilA1, hfilA2]
  subst hm
  have hA1 := hall ("A1", [⟨"P1", some "W1", (5, 5)⟩]) (by simp)
  have hA2 := hall ("A2", []) (by simp)
  obtain ⟨loc₁, hst₁, hfull₁, -⟩ := hA1
  obtain ⟨loc₂, hst₂, -, hempty₂⟩ := hA2
  have hloc₁ : loc₁ = ((0 : ℚ), (0 : ℚ)) := by
    rw [show dget? scenA.agent_stats "A1" =
      some ⟨0, 0, ((0 : ℚ), (0 : ℚ)), []⟩ from rfl] at hst₁
    have := Option.some.inj hst₁
    exact (congrArg AgentStats.current_location this).symm
  have hloc₂ : loc₂ = ((10 : ℚ), (10 : ℚ)) := by
    rw [show dget? scenA.agent_stats "A2" =
      some ⟨0, 0, ((10 : ℚ), (10 : ℚ)), []⟩ from rfl] at hst₂
    have := Option.some.inj hst₂
    exact (congrArg AgentStats.current_location this).symm
  subst hloc₁
  subst hloc₂
  have hnew₁ := hfull₁ (by simp)
  have hgb : groupByWarehouse [(⟨"P1", some "W1", (5, 5)⟩ : Pkg)] =
      [(some "W1", [⟨"P1", some "W1", (5, 5)⟩])] := rfl
  have hd0 : calculate_distance ((0 : ℚ), (0 : ℚ)) ((0 : ℚ), (0 : ℚ)) = 0 := by
    simp [calculate_distance, dist2]
  have hd1 : calculate_distance ((0 : ℚ), (0 : ℚ)) ((5 : ℚ), (5 : ℚ)) =
      Real.sqrt 50 := by
    rw [calculate_distance]
    norm_num [dist2]
  have hsteps : groupSteps scenA.warehouses ((0 : ℚ), (0 : ℚ))
      (groupByWarehouse [(⟨"P1", some "W1", (5, 5)⟩ : Pkg)]) =
      [⟨((0 : ℚ), (0 : ℚ)), ((0 : ℚ), (0 : ℚ)), 0, .to_warehouse⟩,
       ⟨((0 : ℚ), (0 : ℚ)), ((5 : ℚ), (5 : ℚ)), Real.sqrt 50, .delivery⟩] := by
    rw [hgb]
    have hres1 : whLoc scenA.warehouses (some "W1") = ((0 : ℚ), (0 : ℚ)) := by
      simp [whLoc, resolveWh, scenA, dget?]
    simp [groupSteps, deliverySteps, walkEnd, hres1]
    exact ⟨hd0, hd1⟩
  have hb50lo : (7071 / 1000 : ℝ) ≤ Real.sqrt 50 := by
    rw [Real.le_sqrt' (by norm_num)]
    norm_num
  have hb50hi : Real.sqrt 50 < (7072 / 1000 : ℝ) := by
    rw [Real.sqrt_lt' (by norm_num)]
    norm_num
  have hend : groupsEnd scenA.warehouses ((0 : ℚ), (0 : ℚ))
      (groupByWarehouse [(⟨"P1", some "W1", (5, 5)⟩ : Pkg)]) =
      ((5 : ℚ), (5 : ℚ)) := by
    rw [hgb]
    have hres1 : whLoc scenA.warehouses (some "W1") = ((0 : ℚ), (0 : ℚ)) := by
      simp [whLoc, resolveWh, scenA, dget?]
    simp [groupsEnd, walkEnd, hres1]
  have hsum : (List.map RouteStep.distance
      [(⟨((0 : ℚ), (0 : ℚ)), ((0 : ℚ), (0 : ℚ)), 0, .to_warehouse⟩ : RouteStep),
       ⟨((0 : ℚ), (0 : ℚ)), ((5 : ℚ), (5 : ℚ)), Real.sqrt 50, .delivery⟩]).sum =
      Real.sqrt 50 := by
    simp only [List.map_cons, List.map_nil, List.sum_cons, List.sum_nil]
    ring
  dsimp only at hnew₁
  rw [hsteps, hend, hsum] at hnew₁
  exact ⟨h1, h3, h5, _, s', hok, hsim, _, hnew₁, rfl, rfl, hb50lo, hb50hi,
    rfl, by rw [hempty₂ rfl]⟩

/-! ## The delays-enabled simulation -/

theorem simulate_random_delay_true (u : ℕ → ℚ) (k : ℕ) :
    simulate_random_delay true u k =
      (1 + (0 + (3 / 10 - 0) * u k), k + 1) := rfl

theorem LegsIndexed_nil (u : ℕ → ℚ) (k : ℕ) : LegsIndexed u k [] :=
  fun i => i.elim0

theorem LegsIndexed_cons {u : ℕ → ℚ} {k : ℕ} {step : RouteStep}
    {L : List RouteStep}
    (hstep : step.distance =
      calculate_distance step.from_ step.to_ * ((1 + 3 / 10 * u k : ℚ) : ℝ))
    (hL : LegsIndexed u (k + 1) L) : LegsIndexed u k (step :: L) := by
  intro i
  obtain ⟨i, hi⟩ := i
  cases i with
  | zero => exact hstep
  | succ n =>
    have hn : n < L.length := Nat.lt_of_succ_lt_succ hi
    have h := hL ⟨n, hn⟩
    show (L.get ⟨n, hn⟩).distance =
      calculate_distance (L.get ⟨n, hn⟩).from_ (L.get ⟨n, hn⟩).to_ *
        ((1 + 3 / 10 * u (k + (n + 1)) : ℚ) : ℝ)
    rw [show k + (n + 1) = k + 1 + n from by omega]
    exact h

theorem LegsIndexed_append {u : ℕ → ℚ} :
    ∀ {L₁ L₂ : List RouteStep} {k : ℕ},
      LegsIndexed u k L₁ → LegsIndexed u (k + L₁.length) L₂ →
      LegsIndexed u k (L₁ ++ L₂) := by
  intro L₁
  induction L₁ with
  | nil =>
    intro L₂ k _ h₂
    simpa using h₂
  | cons s L ih =>
    intro L₂ k h₁ h₂
    have hs : s.distance =
        calculate_distance s.from_ s.to_ * ((1 + 3 / 10 * u k : ℚ) : ℝ) :=
      h₁ ⟨0, Nat.succ_pos _⟩
    have ht : LegsIndexed u (k + 1) L := by
      intro j
      obtain ⟨n, hn⟩ := j
      have h := h₁ ⟨n + 1, Nat.succ_lt_succ hn⟩
      show (L.get ⟨n, hn⟩).distance =
        calculate_distance (L.get ⟨n, hn⟩).from_ (L.get ⟨n, hn⟩).to_ *
          ((1 + 3 / 10 * u (k + 1 + n) : ℚ) : ℝ)
      rw [show k + 1 + n = k + (n + 1) from by omega]
      exact h
    have h₂' : LegsIndexed u (k + 1 + L.length) L₂ := by
      rw [show k + 1 + L.length = k + (s :: L).length from by
        rw [List.length_cons]; omega]
      exact h₂
    exact LegsIndexed_cons hs (ih ht h₂')

theorem delayedDeliverySteps_length (u : ℕ → ℚ) :
    ∀ (ps : List Pkg) (cur : Point) (k : ℕ),
      (delayedDeliverySteps u cur k ps).length = ps.length := by
  intro ps
  induction ps with
  | nil => intro cur k; rfl
  | cons p rest ih =>
    intro cur k
    rw [delayedDeliverySteps, List.length_cons, ih, List.length_cons]

theorem delayedGroupSteps_length (u : ℕ → ℚ) (W : List (String × Point)) :
    ∀ (gs : List (Option String × List Pkg)) (cur : Point) (k : ℕ),
      (delayedGroupSteps u W cur k gs).length =
        gs.length + (gs.map (fun g => g.2.length)).sum := by
  intro gs
  induction gs with
  | nil => intro cur k; rfl
  | cons g rest ih =>
    intro cur k
    obtain ⟨wid, wpkgs⟩ := g
    rw [delayedGroupSteps]
    simp only [List.length_append, List.length_cons,
      delayedDeliverySteps_length, ih, List.map_cons, List.sum_cons,
      List.length_cons]
    omega

theorem delayedDeliverySteps_indexed (u : ℕ → ℚ) :
    ∀ (ps : List Pkg) (cur : Point) (k : ℕ),
      LegsIndexed u k (delayedDeliverySteps u cur k ps) := by
  intro ps
  induction ps with
  | nil => intro cur k; exact LegsIndexed_nil u k
  | cons p rest ih =>
    intro cur k
    rw [delayedDeliverySteps]
    refine LegsIndexed_cons ?_ (ih p.destination (k + 1))
    dsimp only
    push_cast
    ring

theorem delayedGroupSteps_indexed (u : ℕ → ℚ) (W : List (String × Point)) :
    ∀ (gs : List (Option String × List Pkg)) (cur : Point) (k : ℕ),
      LegsIndexed u k (delayedGroupSteps u W cur k gs) := by
  intro gs
  induction gs with
  | nil => intro cur k; exact LegsIndexed_nil u k
  | cons g rest ih =>
    intro cur k
    obtain ⟨wid, wpkgs⟩ := g
    rw [delayedGroupSteps]
    refine LegsIndexed_append
      (LegsIndexed_cons ?_ (delayedDeliverySteps_indexed u wpkgs _ (k + 1)))
      ?_
    · dsimp only
      push_cast
      ring
    · simp only [List.length_cons, delayedDeliverySteps_length]
      rw [show k + (wpkgs.length + 1) = k + 1 + wpkgs.length from by omega]
      exact ih (walkEnd (whLoc W wid) wpkgs) (k + 1 + wpkgs.length)

theorem deliverySteps_raw :
    ∀ (ps : List Pkg) (cur : Point) (step : RouteStep),
      step ∈ deliverySteps cur ps → StepRaw step := by
  intro ps
  induction ps with
  | nil => intro cur step h; simp [deliverySteps] at h
  | cons p rest ih =>
    intro cur step h
    rw [deliverySteps] at h
    rcases List.mem_cons.mp h with rfl | h
    · rfl
    · exact ih p.destination step h

theorem groupSteps_raw (W : List (String × Point)) :
    ∀ (gs : List (Option String × List Pkg)) (cur : Point) (step : RouteStep),
      step ∈ groupSteps W cur gs → StepRaw step := by
  intro gs
  induction gs with
  | nil => intro cur step h; simp [groupSteps] at h
  | cons g rest ih =>
    intro cur step h
    obtain ⟨wid, wpkgs⟩ := g
    rw [groupSteps] at h
    rcases List.mem_append.mp h with h | h
    · rcases List.mem_cons.mp h with rfl | h
      · rfl
      · exact deliverySteps_raw wpkgs _ step h
    · exact ih _ step h

theorem deliverPackages_true_spec (u : ℕ → ℚ) :
    ∀ (ps : List Pkg) (st : AgentStats) (cur : Point) (k : ℕ),
      deliverPackages true u st cur k ps =
        ({ st with
            packages_delivered := st.packages_delivered + ps.length,
            total_distance := st.total_distance +
              ((delayedDeliverySteps u cur k ps).map RouteStep.distance).sum,
            route_history := st.route_history ++
              delayedDeliverySteps u cur k ps },
          walkEnd cur ps, k + ps.length) := by
  intro ps
  induction ps with
  | nil =>
    intro st cur k
    cases st
    simp [deliverPackages, delayedDeliverySteps, walkEnd]
  | cons p rest ih =>
    intro st cur k
    rw [deliverPackages, simulate_random_delay_true]
    rw [ih]
    cases st
    simp only [delayedDeliverySteps, walkEnd, List.map_cons, List.sum_cons,
      List.append_assoc, List.cons_append, List.nil_append, List.length_cons,
      Prod.mk.injEq, AgentStats.mk.injEq, and_true, true_and]
    refine ⟨⟨by omega, by ring⟩, by omega⟩

theorem processGroups_true_spec (u : ℕ → ℚ) (W : List (String × Point)) :
    ∀ (gs : List (Option String × List Pkg)),
      (∀ g ∈ gs, (resolveWh W g.1).isSome) →
      ∀ (st : AgentStats) (cur : Point) (k : ℕ),
      processGroups true u W st cur k gs =
        .ok ({ st with
            packages_delivered := st.packages_delivered +
              (gs.map (fun g => g.2.length)).sum,
            total_distance := st.total_distance +
              ((delayedGroupSteps u W cur k gs).map RouteStep.distance).sum,
            current_location := groupsCurrent W st.current_location gs,
            route_history := st.route_history ++
              delayedGroupSteps u W cur k gs },
          groupsEnd W cur gs,
          k + gs.length + (gs.map (fun g => g.2.length)).sum) := by
  intro gs
  induction gs with
  | nil =>
    intro _ st cur k
    cases st
    simp [processGroups, delayedGroupSteps, groupsEnd, groupsCurrent]
  | cons g rest ih =>
    intro hres st cur k
    obtain ⟨wid, wpkgs⟩ := g
    have hg := hres _ (List.mem_cons_self _ _)
    rcases hwl : resolveWh W wid with _ | wloc
    · rw [hwl] at hg
      simp at hg
    · have hwloc : whLoc W wid = wloc := whLoc_eq hwl
      have hrest : ∀ g ∈ rest, (resolveWh W g.1).isSome :=
        fun g hgm => hres g (List.mem_cons_of_mem _ hgm)
      simp only [processGroups, hwl, simulate_random_delay_true]
      rw [deliverPackages_true_spec]
      dsimp only
      rw [ih hrest]
      simp only [delayedGroupSteps, groupsEnd, groupsCurrent, hwloc]
      cases st
      simp only [Except.ok.injEq, Prod.mk.injEq, AgentStats.mk.injEq,
        List.map_cons, List.sum_cons, List.map_append, List.sum_append,
        List.append_assoc, List.cons_append, List.nil_append,
        List.length_cons, delayedDeliverySteps_length, and_true, true_and]
      refine ⟨⟨by omega, by ring⟩, by omega⟩

theorem processOneAgent_true_spec (u : ℕ → ℚ) (s : Sys) (k : ℕ)
    (aid : String) (pkgs : List Pkg) {st₀ : AgentStats}
    (hstat : dget? s.agent_stats aid = some st₀)
    (hres : ∀ g ∈ groupByWarehouse pkgs,
      (resolveWh s.warehouses g.1).isSome) :
    processOneAgent true u s k aid pkgs = .ok
      ({ s with
          agent_stats := dset s.agent_stats aid
            ⟨st₀.packages_delivered + pkgs.length,
             st₀.total_distance + ((delayedGroupSteps u s.warehouses
               st₀.current_location k (groupByWarehouse pkgs)).map
                 RouteStep.distance).sum,
             groupsEnd s.warehouses st₀.current_location
               (groupByWarehouse pkgs),
             st₀.route_history ++ delayedGroupSteps u s.warehouses
               st₀.current_location k (groupByWarehouse pkgs)⟩ },
        k + (groupByWarehouse pkgs).length + pkgs.length) := by
  rw [processOneAgent, hstat]
  dsimp only
  rw [processGroups_true_spec u s.warehouses _ hres st₀ st₀.current_location k]
  dsimp only
  rw [groupByWarehouse_sum]

theorem processAgents_true_spec (u : ℕ → ℚ) :
    ∀ (m : List (String × List Pkg)) (s : Sys) (k : ℕ),
      (dkeys m).Nodup →
      (∀ e ∈ m, (∃ st₀, dget? s.agent_stats e.1 = some st₀ ∧
          st₀.route_history = []) ∧
        ∀ g ∈ groupByWarehouse e.2, (resolveWh s.warehouses g.1).isSome) →
      ∃ s' L, processAgents true u s k m = .ok (s', k + L.length) ∧
        LegsIndexed u k L ∧ joinedRoutes s' m = L ∧
        s'.warehouses = s.warehouses ∧ s'.agents = s.agents ∧
        s'.packages = s.packages ∧
        dkeys s'.agent_stats = dkeys s.agent_stats ∧
        (∀ aid, aid ∉ dkeys m →
          dget? s'.agent_stats aid = dget? s.agent_stats aid) := by
  intro m
  induction m with
  | nil =>
    intro s k _ _
    exact ⟨s, [], rfl, LegsIndexed_nil u k, rfl, rfl, rfl, rfl, rfl,
      fun _ _ => rfl⟩
  | cons hd rest ih =>
    intro s k hnd hmem
    obtain ⟨aid, pkgs⟩ := hd
    simp only [dkeys, List.map_cons, List.nodup_cons] at hnd
    have hnotin : aid ∉ dkeys rest := by simpa [dkeys] using hnd.1
    obtain ⟨⟨st₀, hstat, hh0⟩, hgres⟩ := hmem _ (List.mem_cons_self _ _)
    have hjcons : ∀ (t : Sys),
        joinedRoutes t ((aid, pkgs) :: rest) =
          ((dget? t.agent_stats aid).map AgentStats.route_history).getD [] ++
            joinedRoutes t rest := by
      intro t
      simp [joinedRoutes]
    by_cases hpk : pkgs = []
    · subst hpk
      have hskip : processAgents true u s k ((aid, ([] : List Pkg)) :: rest) =
          processAgents true u s k rest := by
        simp [processAgents]
      obtain ⟨s', L, hok, hix, hjoin, hw, ha, hp, hk, huntouched⟩ :=
        ih s k (by simpa [dkeys] using hnd.2)
          (fun e he => hmem e (List.mem_cons_of_mem _ he))
      refine ⟨s', L, by rw [hskip]; exact hok, hix, ?_, hw, ha, hp, hk, ?_⟩
      · rw [hjcons, huntouched aid hnotin, hstat]
        simp [hh0, hjoin]
      · intro aid' h'
        refine huntouched aid' ?_
        simp only [dkeys, List.map_cons, List.mem_cons] at h'
        intro hc
        exact h' (Or.inr (by simpa [dkeys] using hc))
    · obtain ⟨st₁, hone, hh₁⟩ :
          ∃ st₁, processOneAgent true u s k aid pkgs =
              .ok ({ s with agent_stats := dset s.agent_stats aid st₁ },
                k + (groupByWarehouse pkgs).length + pkgs.length) ∧
            st₁.route_history = delayedGroupSteps u s.warehouses
              st₀.current_location k (groupByWarehouse pkgs) :=
        ⟨_, processOneAgent_true_spec u s k aid pkgs hstat hgres,
          by rw [hh0]; simp⟩
      have hixR : LegsIndexed u k (delayedGroupSteps u s.warehouses
          st₀.current_location k (groupByWarehouse pkgs)) :=
        delayedGroupSteps_indexed u s.warehouses (groupByWarehouse pkgs)
          st₀.current_location k
      have hlenR : (delayedGroupSteps u s.warehouses st₀.current_location k
          (groupByWarehouse pkgs)).length =
          (groupByWarehouse pkgs).length + pkgs.length := by
        rw [delayedGroupSteps_length, groupByWarehouse_sum]
      have hmem₁ : aid ∈ dkeys s.agent_stats :=
        dget?_isSome_iff.mp (by rw [hstat]; rfl)
      have hrest₂ : ∀ e ∈ rest,
          (∃ st₂, dget? ({ s with
              agent_stats := dset s.agent_stats aid st₁ } : Sys).agent_stats
              e.1 = some st₂ ∧ st₂.route_history = []) ∧
          ∀ g ∈ groupByWarehouse e.2,
            (resolveWh ({ s with
              agent_stats := dset s.agent_stats aid st₁ } : Sys).warehouses
              g.1).isSome := by
        intro e he
        have hne : e.1 ≠ aid := fun hc =>
          hnotin (hc ▸ List.mem_map_of_mem Prod.fst he)
        obtain ⟨⟨st₂, hst₂, hh₂⟩, hg₂⟩ := hmem e (List.mem_cons_of_mem _ he)
        refine ⟨⟨st₂, ?_, hh₂⟩, hg₂⟩
        show dget? (dset s.agent_stats aid st₁) e.1 = some st₂
        rw [dget?_dset_ne _ hne]
        exact hst₂
      obtain ⟨s', L₁, hok₁, hix₁, hjoin₁, hw, ha, hp, hk, huntouched⟩ :=
        ih ({ s with agent_stats := dset s.agent_stats aid st₁ })
          (k + (groupByWarehouse pkgs).length + pkgs.length)
          (by simpa [dkeys] using hnd.2) hrest₂
      have hkk : k + (delayedGroupSteps u s.warehouses st₀.current_location k
          (groupByWarehouse pkgs)).length =
          k + (groupByWarehouse pkgs).length + pkgs.length := by
        rw [hlenR]; omega
      refine ⟨s', delayedGroupSteps u s.warehouses st₀.current_location k
        (groupByWarehouse pkgs) ++ L₁, ?_, ?_, ?_, hw, ha, hp, ?_, ?_⟩
      · show processAgents true u s k ((aid, pkgs) :: rest) = _
        simp only [processAgents, if_neg hpk]
        rw [hone]
        have hcount : k + ((delayedGroupSteps u s.warehouses
            st₀.current_location k (groupByWarehouse pkgs)) ++ L₁).length =
            k + (groupByWarehouse pkgs).length + pkgs.length + L₁.length := by
          rw [List.length_append, hlenR]; omega
        rw [hcount]
        exact hok₁
      · exact LegsIndexed_append hixR (by rw [hkk]; exact hix₁)
      · rw [hjcons, huntouched aid hnotin]
        have hself : dget? ({ s with
            agent_stats := dset s.agent_stats aid st₁ } : Sys).agent_stats
            aid = some st₁ := dget?_dset_self _ _ _
        rw [hself]
        show st₁.route_history ++ joinedRoutes s' rest = _
        rw [hh₁, hjoin₁]
      · rw [hk]
        show dkeys (dset s.agent_stats aid _) = dkeys s.agent_stats
        rw [dkeys_dset_of_mem _ hmem₁]
      · intro aid' h'
        simp only [dkeys, List.map_cons, List.mem_cons, not_or] at h'
        rw [huntouched aid' (by simpa [dkeys] using h'.2)]
        show dget? (dset s.agent_stats aid st₁) aid' = _
        rw [dget?_dset_ne _ h'.1]

/-- C4 (amended): with random delays disabled every recorded route leg's
distance equals exactly the raw Euclidean distance of the leg.  With delays
enabled, each leg is scaled by a multiplier `1 + 0.3·u n` built from its own
fresh oracle draw — the runs' legs consume consecutive draws `k, k+1, …`,
one per leg, none reused (`LegsIndexed` over the concatenated routes) — so
each recorded distance `d` satisfies `raw ≤ d ≤ raw·1.3` with the upper
bound strict whenever `raw > 0`; at `raw = 0` the claimed half-open interval
`[raw, raw·1.3)` is empty while `d = 0` is still recorded. -/
theorem claimC4_delay_bounds (s : Sys) (u : ℕ → ℚ) (k : ℕ)
    (hu : ∀ n, 0 ≤ u n ∧ u n < 1)
    (hinit : s.agent_stats = _initialize_agent_stats s.agents)
    (hnd : (dkeys s.agents).Nodup) (hres : allResolve s) :
    (∃ s', simulate_delivery s false false u k = .ok (s', k) ∧
      ∀ aid st', dget? s'.agent_stats aid = some st' →
        ∀ step ∈ st'.route_history, StepRaw step) ∧
    (∃ m s' L, assign_packages_to_agents s = .ok m ∧
      simulate_delivery s true false u k = .ok (s', k + L.length) ∧
      joinedRoutes s' m = L ∧ LegsIndexed u k L ∧
      ∀ aid st', dget? s'.agent_stats aid = some st' →
        ∀ step ∈ st'.route_history,
          StepDelayed u step ∧
          calculate_distance step.from_ step.to_ ≤ step.distance ∧
          step.distance ≤ calculate_distance step.from_ step.to_ * (13 / 10) ∧
          (0 < calculate_distance step.from_ step.to_ →
            step.distance <
              calculate_distance step.from_ step.to_ * (13 / 10))) := by
  have hstC : statsComplete s := statsComplete_of_init hinit
  obtain ⟨m, hok, hkeys, hlists⟩ := assign_filter s hstC hres
  have hmhyp : ∀ e ∈ m, (dget? s.agent_stats e.1).isSome ∧
      ∀ g ∈ groupByWarehouse e.2, (resolveWh s.warehouses g.1).isSome := by
    intro e he
    have hek : e.1 ∈ dkeys s.agents :=
      hkeys ▸ List.mem_map_of_mem Prod.fst he
    refine ⟨hstC e.1 hek, ?_⟩
    have he2 := assign_mem_values hstC hres hnd hok he
    have hq : ∀ p ∈ e.2, (resolveWh s.warehouses p.warehouse).isSome = true := by
      intro q hq
      rw [he2] at hq
      exact hres q (List.mem_of_mem_filter hq)
    exact groupByWarehouse_keys
      (fun w => (resolveWh s.warehouses w).isSome = true) hq
  constructor
  · obtain ⟨s', hpok, hw, ha, hp, hkst, huntouched, hempty, hfull⟩ :=
      processAgents_false_spec u m s k (hkeys ▸ hnd) hmhyp
    refine ⟨s', ?_, ?_⟩
    · have hdef : simulate_delivery s false false u k =
          match assign_packages_to_agents s with
          | .error e => .error e
          | .ok m => processAgents false u s k m := rfl
      rw [hdef, hok]
      exact hpok
    · intro aid st' hlook step hstep
      have h1 : aid ∈ dkeys s'.agent_stats :=
        dget?_isSome_iff.mp (by rw [hlook]; rfl)
      rw [hkst, hinit, dkeys_init] at h1
      have h2 : aid ∈ dkeys m := by rw [hkeys]; exact h1
      obtain ⟨e, he, he1⟩ := List.mem_map.mp h2
      have hag : (dget? s.agents aid).isSome := dget?_isSome_iff.mpr h1
      rcases hloc : dget? s.agents aid with _ | loc₀
      · rw [hloc] at hag
        simp at hag
      · have hst₀ : dget? s.agent_stats aid = some ⟨0, 0, loc₀, []⟩ := by
          rw [hinit, dget?_init, hloc]
          rfl
        by_cases he2 : e.2 = []
        · have hut := hempty e he he2
          rw [he1] at hut
          rw [hut, hst₀] at hlook
          have hrh : st'.route_history = [] := by
            rw [← Option.some.inj hlook]
          rw [hrh] at hstep
          exact absurd hstep (List.not_mem_nil step)
        · obtain ⟨st₀, hst₀', hnew⟩ := hfull e he he2
          rw [he1] at hst₀' hnew
          rw [hst₀'] at hst₀
          have h3 : st₀ = ⟨0, 0, loc₀, []⟩ := Option.some.inj hst₀
          subst h3
          rw [hnew] at hlook
          have hrh : st'.route_history =
              groupSteps s.warehouses loc₀ (groupByWarehouse e.2) := by
            rw [← Option.some.inj hlook]
            simp [agentOutcome]
          rw [hrh] at hstep
          exact groupSteps_raw s.warehouses _ _ _ hstep
  · have hmhyp' : ∀ e ∈ m, (∃ st₀, dget? s.agent_stats e.1 = some st₀ ∧
        st₀.route_history = []) ∧
        ∀ g ∈ groupByWarehouse e.2, (resolveWh s.warehouses g.1).isSome := by
      intro e he
      refine ⟨?_, (hmhyp e he).2⟩
      have hek : e.1 ∈ dkeys s.agents :=
        hkeys ▸ List.mem_map_of_mem Prod.fst he
      have hag : (dget? s.agents e.1).isSome := dget?_isSome_iff.mpr hek
      rcases hloc : dget? s.agents e.1 with _ | loc₀
      · rw [hloc] at hag
        simp at hag
      · exact ⟨⟨0, 0, loc₀, []⟩, by rw [hinit, dget?_init, hloc]; rfl, rfl⟩
    obtain ⟨s', L, hok', hix, hjoin, hw, ha, hp, hkst, huntouched⟩ :=
      processAgents_true_spec u m s k (hkeys ▸ hnd) hmhyp'
    refine ⟨m, s', L, hok, ?_, hjoin, hix, ?_⟩
    · have hdef : simulate_delivery s true false u k =
          match assign_packages_to_agents s with
          | .error e => .error e
          | .ok m => processAgents true u s k m := rfl
      rw [hdef, hok]
      exact hok'
    · intro aid st' hlook step hstep
      have h1 : aid ∈ dkeys s'.agent_stats :=
        dget?_isSome_iff.mp (by rw [hlook]; rfl)
      rw [hkst, hinit, dkeys_init] at h1
      have h2 : aid ∈ dkeys m := by rw [hkeys]; exact h1
      obtain ⟨e, he, he1⟩ := List.mem_map.mp h2
      have hstepL : step ∈ L := by
        rw [← hjoin]
        simp only [joinedRoutes]
        refine List.mem_flatten.mpr ⟨st'.route_history, ?_, hstep⟩
        have hc : ((dget? s'.agent_stats e.1).map
            AgentStats.route_history).getD [] = st'.route_history := by
          rw [he1, hlook]
          rfl
        rw [← hc]
        exact List.mem_map_of_mem _ he
      obtain ⟨i, hi⟩ := List.mem_iff_get.mp hstepL
      have hd := hix i
      rw [hi] at hd
      obtain ⟨hu0, hu1⟩ := hu (k + (i : ℕ))
      have hr : (0 : ℝ) ≤ calculate_distance step.from_ step.to_ :=
        Real.sqrt_nonneg _
      have hu0' : (0 : ℝ) ≤ ((u (k + (i : ℕ)) : ℚ) : ℝ) := by
        exact_mod_cast hu0
      have hu1' : ((u (k + (i : ℕ)) : ℚ) : ℝ) < 1 := by exact_mod_cast hu1
      have hm1 : (1 : ℝ) ≤ ((1 + 3 / 10 * u (k + (i : ℕ)) : ℚ) : ℝ) := by
        push_cast
        linarith [hu0']
      have hm2 : ((1 + 3 / 10 * u (k + (i : ℕ)) : ℚ) : ℝ) < 13 / 10 := by
        push_cast
        linarith [hu1']
      refine ⟨⟨k + (i : ℕ), hd⟩, ?_, ?_, ?_⟩
      · rw [hd]
        exact le_mul_of_one_le_right hr hm1
      · rw [hd]
        exact mul_le_mul_of_nonneg_left (le_of_lt hm2) hr
      · intro hpos
        rw [hd]
        exact mul_lt_mul_of_pos_left hm2 hpos

/-- C4, counterexample to the original wording: in `scenZ` (agent on the
warehouse, package destined for the warehouse itself) a delays-enabled run
with a legal oracle records a leg of raw length `0` whose recorded distance
`0` does not lie in the claimed half-open interval
`[raw_distance, raw_distance·1.3) = [0, 0)`, which is empty. -/
theorem claimC4_counterexample :
    (∀ n, 0 ≤ zeroStream n ∧ zeroStream n < 1) ∧
    ∃ s' k', simulate_delivery scenZ true false zeroStream 0 = .ok (s', k') ∧
      ∃ st', dget? s'.agent_stats "A1" = some st' ∧
        ∃ step ∈ st'.route_history,
          ¬ (calculate_distance step.from_ step.to_ ≤ step.distance ∧
            step.distance <
              calculate_distance step.from_ step.to_ * (13 / 10)) := by
  have h0 : ∀ n, 0 ≤ zeroStream n ∧ zeroStream n < 1 :=
    fun n => ⟨le_refl 0, by norm_num [zeroStream]⟩
  have hstCZ : statsComplete scenZ := statsComplete_of_init rfl
  have hresZ : allResolve scenZ := by
    intro p hp
    simp [scenZ] at hp
    subst hp
    simp [resolveWh, scenZ, dget?]
  have hnearZ : pkgNearest scenZ ⟨"P1", some "W1", ((0 : ℚ), (0 : ℚ))⟩ =
      some "A1" := by
    have hres1 : resolveWh scenZ.warehouses (some "W1") =
        some ((0 : ℚ), (0 : ℚ)) := by
      simp [resolveWh, scenZ, dget?]
    rw [pkgNearest,
      show (⟨"P1", some "W1", ((0 : ℚ), (0 : ℚ))⟩ : Pkg).warehouse =
        some "W1" from rfl,
      hres1]
    show firstStrictMin _ _ (dkeys scenZ.agents) = some "A1"
    rw [show dkeys scenZ.agents = ["A1"] from rfl, firstStrictMin_true_cons]
    rfl
  obtain ⟨m, hok, hkeys, hlists⟩ := assign_filter scenZ hstCZ hresZ
  have hmk : dkeys m = ["A1"] := by rw [hkeys]; rfl
  have hm : m = [("A1", [⟨"P1", some "W1", ((0 : ℚ), (0 : ℚ))⟩])] := by
    have hext := dict_ext m
      (fun aid => scenZ.packages.filter (assignedTo scenZ aid))
      (by rw [hmk]; simp)
      (fun aid hmem => hlists aid (hkeys ▸ hmem))
    rw [hext, hmk]
    rw [show scenZ.packages =
      [(⟨"P1", some "W1", ((0 : ℚ), (0 : ℚ))⟩ : Pkg)] from rfl]
    have hassigned : assignedTo scenZ "A1"
        (⟨"P1", some "W1", ((0 : ℚ), (0 : ℚ))⟩ : Pkg) = true := by
      rw [assignedTo, decide_eq_true_eq]
      exact ⟨hnearZ, by decide⟩
    simp only [List.map_cons, List.map_nil, List.filter_cons, hassigned,
      eq_self_iff_true, if_true, List.filter_nil]
  subst hm
  have hstat : dget? scenZ.agent_stats "A1" =
      some ⟨0, 0, ((0 : ℚ), (0 : ℚ)), []⟩ := rfl
  have hgb : groupByWarehouse
      [(⟨"P1", some "W1", ((0 : ℚ), (0 : ℚ))⟩ : Pkg)] =
      [(some "W1", [⟨"P1", some "W1", ((0 : ℚ), (0 : ℚ))⟩])] := rfl
  have hgres : ∀ g ∈ groupByWarehouse
      [(⟨"P1", some "W1", ((0 : ℚ), (0 : ℚ))⟩ : Pkg)],
      (resolveWh scenZ.warehouses g.1).isSome := by
    rw [hgb]
    intro g hg
    simp only [List.mem_singleton] at hg
    subst hg
    simp [resolveWh, scenZ, dget?]
  have hone := processOneAgent_true_spec zeroStream scenZ 0 "A1"
    [(⟨"P1", some "W1", ((0 : ℚ), (0 : ℚ))⟩ : Pkg)] hstat hgres
  have hwlZ : whLoc scenZ.warehouses (some "W1") = ((0 : ℚ), (0 : ℚ)) := by
    simp [whLoc, resolveWh, scenZ, dget?]
  have hd0 : calculate_distance ((0 : ℚ), (0 : ℚ)) ((0 : ℚ), (0 : ℚ)) = 0 := by
    simp [calculate_distance, dist2]
  have hR : delayedGroupSteps zeroStream scenZ.warehouses
      ((0 : ℚ), (0 : ℚ)) 0 (groupByWarehouse
        [(⟨"P1", some "W1", ((0 : ℚ), (0 : ℚ))⟩ : Pkg)]) =
      [⟨((0 : ℚ), (0 : ℚ)), ((0 : ℚ), (0 : ℚ)), 0, .to_warehouse⟩,
       ⟨((0 : ℚ), (0 : ℚ)), ((0 : ℚ), (0 : ℚ)), 0, .delivery⟩] := by
    rw [hgb]
    simp only [delayedGroupSteps, delayedDeliverySteps, hwlZ, hd0, walkEnd,
      zero_mul, List.cons_append, List.nil_append, List.append_nil]
  have hpk : ¬([(⟨"P1", some "W1", ((0 : ℚ), (0 : ℚ))⟩ : Pkg)] =
      ([] : List Pkg)) := by simp
  obtain ⟨stZ, honeZ, hhZ⟩ :
      ∃ stZ, (processOneAgent true zeroStream scenZ 0 "A1"
          [(⟨"P1", some "W1", ((0 : ℚ), (0 : ℚ))⟩ : Pkg)] =
        .ok ({ scenZ with
          agent_stats := dset scenZ.agent_stats "A1" stZ }, 2)) ∧
        stZ.route_history = delayedGroupSteps zeroStream scenZ.warehouses
          ((0 : ℚ), (0 : ℚ)) 0 (groupByWarehouse
            [(⟨"P1", some "W1", ((0 : ℚ), (0 : ℚ))⟩ : Pkg)]) :=
    ⟨_, hone, rfl⟩
  have hsim : simulate_delivery scenZ true false zeroStream 0 =
      .ok ({ scenZ with
        agent_stats := dset scenZ.agent_stats "A1" stZ }, 2) := by
    have hdef : simulate_delivery scenZ true false zeroStream 0 =
        match assign_packages_to_agents scenZ with
        | .error e => .error e
        | .ok mm => processAgents true zeroStream scenZ 0 mm := rfl
    rw [hdef, hok]
    show processAgents true zeroStream scenZ 0
      [("A1", [(⟨"P1", some "W1", ((0 : ℚ), (0 : ℚ))⟩ : Pkg)])] = _
    simp only [processAgents, if_neg hpk]
    rw [honeZ]
  refine ⟨h0, _, 2, hsim, stZ, dget?_dset_self _ _ _,
    ⟨((0 : ℚ), (0 : ℚ)), ((0 : ℚ), (0 : ℚ)), 0, .to_warehouse⟩, ?_, ?_⟩
  · rw [hhZ, hR]
    exact List.mem_cons_self _ _
  · intro hcontra
    have hlt := hcontra.2
    dsimp only at hlt
    rw [hd0] at hlt
    simp at hlt

/-- Witness for C4 at the §8.2 scenario with the constant-zero oracle: both
the delays-disabled and the delays-enabled conclusions hold. -/
theorem claimC4_delay_bounds_witness :
    (∀ n, 0 ≤ zeroStream n ∧ zeroStream n < 1) ∧
    scenA.agent_stats = _initialize_agent_stats scenA.agents ∧
    (dkeys scenA.agents).Nodup ∧ allResolve scenA ∧
    ((∃ s', simulate_delivery scenA false false zeroStream 0 = .ok (s', 0) ∧
      ∀ aid st', dget? s'.agent_stats aid = some st' →
        ∀ step ∈ st'.route_history, StepRaw step) ∧
     (∃ m s' L, assign_packages_to_agents scenA = .ok m ∧
      simulate_delivery scenA true false zeroStream 0 =
        .ok (s', 0 + L.length) ∧
      joinedRoutes s' m = L ∧ LegsIndexed zeroStream 0 L ∧
      ∀ aid st', dget? s'.agent_stats aid = some st' →
        ∀ step ∈ st'.route_history,
          StepDelayed zeroStream step ∧
          calculate_distance step.from_ step.to_ ≤ step.distance ∧
          step.distance ≤ calculate_distance step.from_ step.to_ * (13 / 10) ∧
          (0 < calculate_distance step.from_ step.to_ →
            step.distance <
              calculate_distance step.from_ step.to_ * (13 / 10)))) := by
  have h0 : ∀ n, 0 ≤ zeroStream n ∧ zeroStream n < 1 :=
    fun n => ⟨le_refl 0, by norm_num [zeroStream]⟩
  have h1 : scenA.agent_stats = _initialize_agent_stats scenA.agents := rfl
  have h3 : (dkeys scenA.agents).Nodup := by simp [scenA, dkeys]
  have h5 : allResolve scenA := by
    intro p hp
    simp [scenA] at hp
    subst hp
    simp [resolveWh, scenA, dget?]
  exact ⟨h0, h1, h3, h5, claimC4_delay_bounds scenA zeroStream 0 h0 h1 h3 h5⟩

/-! ## The report: efficiency entries and the best-agent scan -/

theorem bestScanAux_entries :
    ∀ (l : List (String × ReportVal)),
      (∀ p ∈ l, ∃ n t e, p.2 = ReportVal.entry n t e) →
      ∀ (acc : Option ((String × ReportVal) × ℝ)),
        (∀ q, acc = some q → q.2 = entryEff q.1.2) →
        bestScanAux l (acc.map (fun q => (q.1.1, q.2))) =
          (l.foldl (stepMin (fun p => entryEff p.2)
            (fun p : String × ReportVal => 0 < deliveredOf p.2)) acc).map
              (fun q => q.1.1) := by
  intro l
  induction l with
  | nil =>
    intro _ acc _
    rcases acc with _ | q
    · rfl
    · rfl
  | cons p rest ih =>
    intro hl acc hacc
    obtain ⟨aid, v⟩ := p
    have hrest : ∀ p ∈ rest, ∃ n t e, p.2 = ReportVal.entry n t e :=
      fun p hp => hl p (List.mem_cons_of_mem _ hp)
    cases v with
    | entry n t e =>
      rcases acc with _ | ⟨⟨bid, bv⟩, m⟩
      · rw [List.foldl_cons]
        by_cases hn : 0 < n
        · have h1 : bestScanAux ((aid, ReportVal.entry n t e) :: rest)
              ((none : Option ((String × ReportVal) × ℝ)).map
                (fun q => (q.1.1, q.2))) =
              bestScanAux rest (some (aid, e)) := by
            show bestScanAux rest (if 0 < n then some (aid, e) else none) = _
            rw [if_pos hn]
          have h2 : stepMin (fun p => entryEff p.2)
              (fun p : String × ReportVal => 0 < deliveredOf p.2) none
              (aid, ReportVal.entry n t e) =
              some ((aid, ReportVal.entry n t e), e) := by
            show (if 0 < deliveredOf (ReportVal.entry n t e) then
              some ((aid, ReportVal.entry n t e),
                entryEff (ReportVal.entry n t e)) else none) = _
            simp only [deliveredOf, entryEff]
            rw [if_pos hn]
          rw [h1, h2]
          exact ih hrest (some ((aid, ReportVal.entry n t e), e))
            (fun q hq => by rw [← Option.some.inj hq]; rfl)
        · have h1 : bestScanAux ((aid, ReportVal.entry n t e) :: rest)
              ((none : Option ((String × ReportVal) × ℝ)).map
                (fun q => (q.1.1, q.2))) =
              bestScanAux rest none := by
            show bestScanAux rest (if 0 < n then some (aid, e) else none) = _
            rw [if_neg hn]
          have h2 : stepMin (fun p => entryEff p.2)
              (fun p : String × ReportVal => 0 < deliveredOf p.2) none
              (aid, ReportVal.entry n t e) = none := by
            show (if 0 < deliveredOf (ReportVal.entry n t e) then
              some ((aid, ReportVal.entry n t e),
                entryEff (ReportVal.entry n t e)) else none) = _
            simp only [deliveredOf, entryEff]
            rw [if_neg hn]
          rw [h1, h2]
          exact ih hrest none (fun q hq => absurd hq (by simp))
      · have hm : m = entryEff bv := hacc _ rfl
        rw [List.foldl_cons]
        by_cases hcond : 0 < n ∧ e < m
        · have h1 : bestScanAux ((aid, ReportVal.entry n t e) :: rest)
              ((some ((bid, bv), m)).map (fun q => (q.1.1, q.2))) =
              bestScanAux rest (some (aid, e)) := by
            show bestScanAux rest (if 0 < n ∧ e < m then some (aid, e)
              else some (bid, m)) = _
            rw [if_pos hcond]
          have h2 : stepMin (fun p => entryEff p.2)
              (fun p : String × ReportVal => 0 < deliveredOf p.2)
              (some ((bid, bv), m)) (aid, ReportVal.entry n t e) =
              some ((aid, ReportVal.entry n t e), e) := by
            show (if 0 < deliveredOf (ReportVal.entry n t e) ∧
                entryEff (ReportVal.entry n t e) < m then
              some ((aid, ReportVal.entry n t e),
                entryEff (ReportVal.entry n t e))
              else some ((bid, bv), m)) = _
            simp only [deliveredOf, entryEff]
            rw [if_pos hcond]
          rw [h1, h2]
          exact ih hrest (some ((aid, ReportVal.entry n t e), e))
            (fun q hq => by rw [← Option.some.inj hq]; rfl)
        · have h1 : bestScanAux ((aid, ReportVal.entry n t e) :: rest)
              ((some ((bid, bv), m)).map (fun q => (q.1.1, q.2))) =
              bestScanAux rest (some (bid, m)) := by
            show bestScanAux rest (if 0 < n ∧ e < m then some (aid, e)
              else some (bid, m)) = _
            rw [if_neg hcond]
          have h2 : stepMin (fun p => entryEff p.2)
              (fun p : String × ReportVal => 0 < deliveredOf p.2)
              (some ((bid, bv), m)) (aid, ReportVal.entry n t e) =
              some ((bid, bv), m) := by
            show (if 0 < deliveredOf (ReportVal.entry n t e) ∧
                entryEff (ReportVal.entry n t e) < m then
              some ((aid, ReportVal.entry n t e),
                entryEff (ReportVal.entry n t e))
              else some ((bid, bv), m)) = _
            simp only [deliveredOf, entryEff]
            rw [if_neg hcond]
          rw [h1, h2]
          exact ih hrest (some ((bid, bv), m))
            (fun q hq => by rw [← Option.some.inj hq]; exact hm)
    | best b =>
      obtain ⟨n, t, e, hv⟩ := hl _ (List.mem_cons_self _ _)
      exact absurd hv (by simp)

/-- C5 (amended): the report maps every agent, in stats order, to an entry
carrying its delivered count, rounded total distance and rounded efficiency
(`total/delivered` when the count is positive, else `0.0`); the best-agent
scan returns exactly the spec's first-seen strict minimum of the rounded
efficiency among entries with a positive delivered count; the winner is
stored under key `'best_agent'` only when its identifier is truthy
(non-empty, line 228's `if best_agent:`), the report staying unchanged both
when no agent delivered anything and when the selected identifier is the
empty string; the selected entry always has a positive delivered count, its
rounded efficiency is minimal among all positive-delivery entries, and
every positive-delivery entry listed before it has a strictly larger
rounded efficiency. -/
theorem claimC5_efficiency (s : Sys) :
    reportEntries s = s.agent_stats.map (fun a => (a.1,
      ReportVal.entry a.2.packages_delivered (round2 a.2.total_distance)
        (round2 (if 0 < a.2.packages_delivered then
          a.2.total_distance / (a.2.packages_delivered : ℝ) else 0)))) ∧
    bestScanAux (reportEntries s) none =
      (firstStrictMin (fun p => entryEff p.2)
        (fun p : String × ReportVal => 0 < deliveredOf p.2)
        (reportEntries s)).map Prod.fst ∧
    (∀ b, bestScanAux (reportEntries s) none = some b → b ≠ "" →
      calculate_efficiency s =
        dset (reportEntries s) "best_agent" (ReportVal.best b)) ∧
    (∀ b, bestScanAux (reportEntries s) none = some b → b = "" →
      calculate_efficiency s = reportEntries s) ∧
    (bestScanAux (reportEntries s) none = none →
      calculate_efficiency s = reportEntries s) ∧
    (bestScanAux (reportEntries s) none = none ↔
      ∀ p ∈ reportEntries s, deliveredOf p.2 = 0) ∧
    ∀ p, firstStrictMin (fun p => entryEff p.2)
        (fun p : String × ReportVal => 0 < deliveredOf p.2)
        (reportEntries s) = some p →
      0 < deliveredOf p.2 ∧
      (∀ q ∈ reportEntries s, 0 < deliveredOf q.2 →
        entryEff p.2 ≤ entryEff q.2) ∧
      ∃ l₁ l₂, reportEntries s = l₁ ++ p :: l₂ ∧
        ∀ q ∈ l₁, 0 < deliveredOf q.2 → entryEff p.2 < entryEff q.2 := by
  have hall : ∀ p ∈ reportEntries s, ∃ n t e,
      p.2 = ReportVal.entry n t e := by
    intro p hp
    simp only [reportEntries, List.mem_map] at hp
    obtain ⟨a, -, rfl⟩ := hp
    exact ⟨_, _, _, rfl⟩
  have hbridge : bestScanAux (reportEntries s) none =
      (firstStrictMin (fun p => entryEff p.2)
        (fun p : String × ReportVal => 0 < deliveredOf p.2)
        (reportEntries s)).map Prod.fst := by
    have h₀ : bestScanAux (reportEntries s) none =
        ((reportEntries s).foldl (stepMin (fun p => entryEff p.2)
          (fun p : String × ReportVal => 0 < deliveredOf p.2)) none).map
            (fun q => q.1.1) :=
      bestScanAux_entries (reportEntries s) hall none
        (fun q hq => absurd hq (by simp))
    rw [h₀, foldl_stepMin_none, Option.map_map]
    rfl
  refine ⟨rfl, hbridge, ?_, ?_, ?_, ?_, ?_⟩
  · intro b hb hbe
    rw [calculate_efficiency, hb]
    show (if b = "" then reportEntries s
      else dset (reportEntries s) "best_agent" (ReportVal.best b)) = _
    rw [if_neg hbe]
  · intro b hb hbe
    rw [calculate_efficiency, hb]
    show (if b = "" then reportEntries s
      else dset (reportEntries s) "best_agent" (ReportVal.best b)) = _
    rw [if_pos hbe]
  · intro hb
    rw [calculate_efficiency, hb]
  · rw [hbridge, Option.map_eq_none', firstStrictMin_none_iff]
    constructor
    · intro h p hp
      have := h p hp
      omega
    · intro h p hp
      have := h p hp
      omega
  · intro p hp
    obtain ⟨h1, h2, l₁, l₂, h3, h4⟩ := firstStrictMin_spec
      (fun p : String × ReportVal => entryEff p.2)
      (fun p : String × ReportVal => 0 < deliveredOf p.2)
      (reportEntries s) p hp
    exact ⟨h1, h2, l₁, l₂, h3, h4⟩

/-! ## The report mapping around the `'best_agent'` key -/

theorem filter_dset_key {α : Type} (v : α) :
    ∀ (d : List (String × α)) (k : String),
      (dset d k v).filter (fun kv => decide (kv.1 ≠ k)) =
        d.filter (fun kv => decide (kv.1 ≠ k)) := by
  intro d
  induction d with
  | nil =>
    intro k
    simp [dset]
  | cons e rest ih =>
    intro k
    obtain ⟨k', v'⟩ := e
    by_cases h : k' = k
    · subst h
      simp [dset, List.filter_cons]
    · simp only [dset, if_neg h, List.filter_cons]
      have hd : decide ((k', v').1 ≠ k) = true := by
        simp [h]
      have hd2 : decide ((k', v).1 ≠ k) = true := by
        simp [h]
      simp only [hd, if_true, ih]

theorem reported_filtered_stats :
    ∀ (l : List (String × AgentStats)),
      (((l.map (fun a => (a.1, mkEntry a.2))).filter
        (fun kv => decide (kv.1 ≠ "best_agent"))).map
          (fun kv => deliveredOf kv.2)).sum =
      ((l.filter (fun kv => decide (kv.1 ≠ "best_agent"))).map
        (fun kv => kv.2.packages_delivered)).sum := by
  intro l
  induction l with
  | nil => rfl
  | cons a rest ih =>
    by_cases h : a.1 = "best_agent"
    · simp only [List.map_cons, List.filter_cons, h]
      have hd : decide (("best_agent" : String) ≠ "best_agent") = false := by
        simp
      simp only [hd, Bool.false_eq_true, if_false, ih]
    · simp only [List.map_cons, List.filter_cons]
      have hd : decide (a.1 ≠ "best_agent") = true := by
        simp [h]
      simp only [hd, if_true, List.map_cons, List.sum_cons, ih]
      rfl

/-- C10: the best-agent designator lives in the same report mapping, under
the literal key `'best_agent'`, and `generate_report` sums the delivered
counts over every key except exactly that literal; a designator is stored
only for a truthy (non-empty) winning identifier (line 228's
`if best_agent:`), an empty-string winner leaving the report untouched;
when no agent is named `'best_agent'` the report holds one entry per
stats record plus at most one designator, and the completeness sum equals
the stats sum; an agent literally named `'best_agent'` has its entry
overwritten by the designator (the report does not grow) and its
delivered count is excluded from the completeness sum. -/
theorem claimC10_best_agent_key (s : Sys) :
    (∀ t : Sys, generate_report t = (calculate_efficiency t,
      decide (reported_total_delivered (calculate_efficiency t) ≠
        t.packages.length))) ∧
    (∀ r : List (String × ReportVal), reported_total_delivered r =
      ((r.filter (fun kv => decide (kv.1 ≠ "best_agent"))).map
        (fun kv => deliveredOf kv.2)).sum) ∧
    (∀ b, bestScanAux (reportEntries s) none = some b → b ≠ "" →
      calculate_efficiency s =
        dset (reportEntries s) "best_agent" (ReportVal.best b) ∧
      dget? (calculate_efficiency s) "best_agent" =
        some (ReportVal.best b)) ∧
    (∀ b, bestScanAux (reportEntries s) none = some b → b = "" →
      calculate_efficiency s = reportEntries s) ∧
    ("best_agent" ∉ dkeys s.agent_stats →
      (bestScanAux (reportEntries s) none = none →
        (calculate_efficiency s).length = s.agent_stats.length) ∧
      (∀ b, bestScanAux (reportEntries s) none = some b → b ≠ "" →
        (calculate_efficiency s).length = s.agent_stats.length + 1) ∧
      (∀ b, bestScanAux (reportEntries s) none = some b → b = "" →
        (calculate_efficiency s).length = s.agent_stats.length) ∧
      reported_total_delivered (calculate_efficiency s) =
        statsDeliveredSum s) ∧
    ("best_agent" ∈ dkeys s.agent_stats →
      ∀ b, bestScanAux (reportEntries s) none = some b → b ≠ "" →
        (calculate_efficiency s).length = s.agent_stats.length ∧
        reported_total_delivered (calculate_efficiency s) =
          ((s.agent_stats.filter
            (fun kv => decide (kv.1 ≠ "best_agent"))).map
              (fun kv => kv.2.packages_delivered)).sum) := by
  have hkeys : dkeys (reportEntries s) = dkeys s.agent_stats := by
    simp [dkeys, reportEntries, List.map_map]
  have hstore : ∀ b, bestScanAux (reportEntries s) none = some b → b ≠ "" →
      calculate_efficiency s =
        dset (reportEntries s) "best_agent" (ReportVal.best b) := by
    intro b hb hbe
    rw [calculate_efficiency, hb]
    show (if b = "" then reportEntries s
      else dset (reportEntries s) "best_agent" (ReportVal.best b)) = _
    rw [if_neg hbe]
  have hskip : ∀ b, bestScanAux (reportEntries s) none = some b → b = "" →
      calculate_efficiency s = reportEntries s := by
    intro b hb hbe
    rw [calculate_efficiency, hb]
    show (if b = "" then reportEntries s
      else dset (reportEntries s) "best_agent" (ReportVal.best b)) = _
    rw [if_pos hbe]
  refine ⟨fun t => rfl, fun r => rfl, ?_, hskip, ?_, ?_⟩
  · intro b hb hbe
    exact ⟨hstore b hb hbe, by rw [hstore b hb hbe]; exact dget?_dset_self _ _ _⟩
  · intro hnb
    refine ⟨?_, ?_, ?_, reported_total_delivered_eq s hnb⟩
    · intro h0
      rw [calculate_efficiency, h0]
      simp [reportEntries]
    · intro b hb hbe
      rw [hstore b hb hbe]
      have hnm : "best_agent" ∉ dkeys (reportEntries s) := by
        rw [hkeys]
        exact hnb
      rw [dset_of_not_mem _ hnm]
      simp [reportEntries]
    · intro b hb hbe
      rw [hskip b hb hbe]
      simp [reportEntries]
  · intro hmem b hb hbe
    have h1 := hstore b hb hbe
    have hmem' : "best_agent" ∈ dkeys (reportEntries s) := by
      rw [hkeys]
      exact hmem
    constructor
    · rw [h1]
      have hh := congrArg List.length
        (dkeys_dset_of_mem (ReportVal.best b) hmem')
      simp only [dkeys, List.length_map] at hh
      rw [hh]
      simp [reportEntries]
    · rw [h1]
      rw [show reported_total_delivered (dset (reportEntries s) "best_agent"
          (ReportVal.best b)) =
        (((dset (reportEntries s) "best_agent" (ReportVal.best b)).filter
          (fun kv => decide (kv.1 ≠ "best_agent"))).map
            (fun kv => deliveredOf kv.2)).sum from rfl]
      rw [filter_dset_key]
      exact reported_filtered_stats s.agent_stats

/-! ## Concrete report evaluation at `scenR` -/

theorem rne_intCast (z : ℤ) : rne ((z : ℤ) : ℝ) = z := by
  rw [rne, Int.floor_intCast]
  norm_num

theorem scenR_entries : reportEntries scenR =
    [("A1", ReportVal.entry 2 (round2 10)
        (round2 ((10 : ℝ) / ((2 : ℕ) : ℝ)))),
     ("A2", ReportVal.entry 1 (round2 3)
        (round2 ((3 : ℝ) / ((1 : ℕ) : ℝ)))),
     ("A3", ReportVal.entry 0 (round2 0) (round2 0))] := by
  rw [show reportEntries scenR = [("A1", mkEntry ⟨2, 10, (0, 0), []⟩),
    ("A2", mkEntry ⟨1, 3, (0, 0), []⟩),
    ("A3", mkEntry ⟨0, 0, (0, 0), []⟩)] from rfl]
  simp only [mkEntry]
  rw [if_pos (by norm_num : (0 : ℕ) < 2), if_pos (by norm_num : (0 : ℕ) < 1),
    if_neg (by norm_num : ¬(0 : ℕ) < 0)]

theorem scenR_eff5 : round2 ((10 : ℝ) / ((2 : ℕ) : ℝ)) = 5 := by
  rw [round2, show (10 : ℝ) / ((2 : ℕ) : ℝ) * 100 = ((500 : ℤ) : ℝ) from by
    push_cast
    norm_num, rne_intCast]
  norm_num

theorem scenR_eff3 : round2 ((3 : ℝ) / ((1 : ℕ) : ℝ)) = 3 := by
  rw [round2, show (3 : ℝ) / ((1 : ℕ) : ℝ) * 100 = ((300 : ℤ) : ℝ) from by
    push_cast
    norm_num, rne_intCast]
  norm_num

theorem scenR_best : bestScanAux (reportEntries scenR) none = some "A2" := by
  have hlt : round2 ((3 : ℝ) / ((1 : ℕ) : ℝ)) <
      round2 ((10 : ℝ) / ((2 : ℕ) : ℝ)) := by
    rw [scenR_eff3, scenR_eff5]
    norm_num
  rw [scenR_entries]
  calc bestScanAux
        [("A1", ReportVal.entry 2 (round2 10)
            (round2 ((10 : ℝ) / ((2 : ℕ) : ℝ)))),
         ("A2", ReportVal.entry 1 (round2 3)
            (round2 ((3 : ℝ) / ((1 : ℕ) : ℝ)))),
         ("A3", ReportVal.entry 0 (round2 0) (round2 0))] none
      = bestScanAux
          [("A2", ReportVal.entry 1 (round2 3)
              (round2 ((3 : ℝ) / ((1 : ℕ) : ℝ)))),
           ("A3", ReportVal.entry 0 (round2 0) (round2 0))]
          (if 0 < 2 then some ("A1", round2 ((10 : ℝ) / ((2 : ℕ) : ℝ)))
            else none) := by simp only [bestScanAux]
    _ = bestScanAux
          [("A2", ReportVal.entry 1 (round2 3)
              (round2 ((3 : ℝ) / ((1 : ℕ) : ℝ)))),
           ("A3", ReportVal.entry 0 (round2 0) (round2 0))]
          (some ("A1", round2 ((10 : ℝ) / ((2 : ℕ) : ℝ)))) := by
        rw [if_pos (by norm_num : (0 : ℕ) < 2)]
    _ = bestScanAux [("A3", ReportVal.entry 0 (round2 0) (round2 0))]
          (if 0 < 1 ∧ round2 ((3 : ℝ) / ((1 : ℕ) : ℝ)) <
              round2 ((10 : ℝ) / ((2 : ℕ) : ℝ)) then
            some ("A2", round2 ((3 : ℝ) / ((1 : ℕ) : ℝ)))
          else some ("A1", round2 ((10 : ℝ) / ((2 : ℕ) : ℝ)))) := by
        simp only [bestScanAux]
    _ = bestScanAux [("A3", ReportVal.entry 0 (round2 0) (round2 0))]
          (some ("A2", round2 ((3 : ℝ) / ((1 : ℕ) : ℝ)))) := by
        rw [if_pos ⟨by norm_num, hlt⟩]
    _ = bestScanAux ([] : List (String × ReportVal))
          (if 0 < 0 ∧ round2 0 < round2 ((3 : ℝ) / ((1 : ℕ) : ℝ)) then
            some ("A3", round2 0)
          else some ("A2", round2 ((3 : ℝ) / ((1 : ℕ) : ℝ)))) := by
        simp only [bestScanAux]
    _ = bestScanAux ([] : List (String × ReportVal))
          (some ("A2", round2 ((3 : ℝ) / ((1 : ℕ) : ℝ)))) := by
        rw [if_neg (fun h => absurd h.1 (by norm_num))]
    _ = some "A2" := rfl

theorem scenB_entries : reportEntries scenB =
    [("", ReportVal.entry 1 (round2 3)
        (round2 ((3 : ℝ) / ((1 : ℕ) : ℝ))))] := by
  rw [show reportEntries scenB = [("", mkEntry ⟨1, 3, (0, 0), []⟩)] from rfl]
  simp only [mkEntry]
  rw [if_pos (by norm_num : (0 : ℕ) < 1)]

theorem scenB_best : bestScanAux (reportEntries scenB) none = some "" := by
  rw [scenB_entries]
  calc bestScanAux
        [("", ReportVal.entry 1 (round2 3)
            (round2 ((3 : ℝ) / ((1 : ℕ) : ℝ))))] none
      = bestScanAux ([] : List (String × ReportVal))
          (if 0 < 1 then some ("", round2 ((3 : ℝ) / ((1 : ℕ) : ℝ)))
            else none) := by simp only [bestScanAux]
    _ = bestScanAux ([] : List (String × ReportVal))
          (some ("", round2 ((3 : ℝ) / ((1 : ℕ) : ℝ)))) := by
        rw [if_pos (by norm_num : (0 : ℕ) < 1)]
    _ = some "" := rfl

/-- C5, counterexample to the original wording: in `scenB` the sole — hence
first-seen strict-minimum — agent with a positive delivered count has the
empty-string identifier, so the scan selects it, yet line 228's
`if best_agent:` treats `''` as falsy and no best agent is designated: the
report carries no `'best_agent'` key although an agent delivered. -/
theorem claimC5_counterexample :
    bestScanAux (reportEntries scenB) none = some "" ∧
    (∃ p ∈ reportEntries scenB, 0 < deliveredOf p.2) ∧
    calculate_efficiency scenB = reportEntries scenB ∧
    dget? (calculate_efficiency scenB) "best_agent" = none := by
  have hskip : calculate_efficiency scenB = reportEntries scenB := by
    rw [calculate_efficiency, scenB_best]
    show (if ("" : String) = "" then reportEntries scenB
      else dset (reportEntries scenB) "best_agent" (ReportVal.best "")) = _
    rw [if_pos rfl]
  refine ⟨scenB_best, ?_, hskip, ?_⟩
  · refine ⟨("", ReportVal.entry 1 (round2 3)
      (round2 ((3 : ℝ) / ((1 : ℕ) : ℝ)))), ?_, ?_⟩
    · rw [scenB_entries]
      exact List.mem_cons_self _ _
    · exact Nat.one_pos
  · rw [hskip, scenB_entries]
    simp [dget?]

/-- Witness for C5 at `scenR`: `A2` (delivered 1 over distance 3, rounded
efficiency 3, a truthy identifier) beats `A1` (rounded efficiency 5), is
stored under `'best_agent'`, and the zero-delivery `A3` is never
selected. -/
theorem claimC5_efficiency_witness :
    bestScanAux (reportEntries scenR) none = some "A2" ∧
    ("A2" : String) ≠ "" ∧
    calculate_efficiency scenR =
      dset (reportEntries scenR) "best_agent" (ReportVal.best "A2") ∧
    ∃ p, firstStrictMin (fun p => entryEff p.2)
        (fun p : String × ReportVal => 0 < deliveredOf p.2)
        (reportEntries scenR) = some p ∧ 0 < deliveredOf p.2 := by
  have hc := claimC5_efficiency scenR
  rcases hfs : firstStrictMin (fun p => entryEff p.2)
      (fun p : String × ReportVal => 0 < deliveredOf p.2)
      (reportEntries scenR) with _ | p
  · have hb := hc.2.1
    rw [scenR_best, hfs] at hb
    simp at hb
  · exact ⟨scenR_best, by decide,
      hc.2.2.1 "A2" scenR_best (by decide), p, hfs,
      (hc.2.2.2.2.2.2 p hfs).1⟩

/-- Witness for C10 at `scenR`: the designator for `A2` (a truthy
identifier) is stored under the key `'best_agent'`, the report has one
entry per agent plus the designator, and the completeness sum equals the
stats sum `3`. -/
theorem claimC10_best_agent_key_witness :
    "best_agent" ∉ dkeys scenR.agent_stats ∧
    bestScanAux (reportEntries scenR) none = some "A2" ∧
    dget? (calculate_efficiency scenR) "best_agent" =
      some (ReportVal.best "A2") ∧
    (calculate_efficiency scenR).length = scenR.agent_stats.length + 1 ∧
    reported_total_delivered (calculate_efficiency scenR) =
      statsDeliveredSum scenR ∧ statsDeliveredSum scenR = 3 := by
  have hc := claimC10_best_agent_key scenR
  have hnb : "best_agent" ∉ dkeys scenR.agent_stats := by
    simp [scenR, dkeys]
  obtain ⟨-, hlen, -, hsum⟩ := hc.2.2.2.2.1 hnb
  exact ⟨hnb, scenR_best, (hc.2.2.1 "A2" scenR_best (by decide)).2,
    hlen "A2" scenR_best (by decide), hsum, rfl⟩

end MysteryDelivery
